import Mathlib

/-!
Verification of the `ox-tagfilter.js` content-filtering widget.

The development shallowly embeds the JavaScript source (src/ox-tagfilter.js)
in Lean: the rendered HTML document becomes an inductive tree of element and
text nodes, DOM mutations (classList edits, dataset writes) become functional
tree updates addressed by child-index paths, and the host-environment string
primitives used by the code (String.prototype.trim / split / includes /
toLowerCase, String.prototype.normalize with form NFKD) are modelled by
executable Lean functions with the ECMAScript semantics documented at each
definition.
-/

namespace OXTF

/-- The CSS class used by the widget to hide content
(`OXTF.invisibleClassName = 'oxtf-invisible'`). -/
def invisibleClassName : String := "oxtf-invisible"

/-! ## JavaScript string primitives -/

/-- Whitespace test matching the characters Lean's `String.trim` removes;
models the `\s` regex class for the whitespace actually occurring in
org-exported heading texts (space, tab, CR, LF). -/
def isWsChar (c : Char) : Bool := c = ' ' || c = '\t' || c = '\n' || c = '\r'

/-- ECMAScript `String.prototype.trim` for the whitespace characters in
scope: drops leading and trailing whitespace.  Implemented structurally so
that concrete evaluations reduce in the kernel. -/
def jsTrim (s : String) : String :=
  String.mk (((s.data.dropWhile isWsChar).reverse.dropWhile isWsChar).reverse)

/-- Core loop of `jsSplitWs`.  `acc` holds the current token's characters in
reverse; `inRun` records whether the previous character was whitespace, so a
maximal whitespace run produces a single separator. -/
def splitWsGo : List Char → List Char → Bool → List String
  | [], acc, _ => [String.mk acc.reverse]
  | c :: cs, acc, inRun =>
    if isWsChar c then
      if inRun then splitWsGo cs acc true
      else String.mk acc.reverse :: splitWsGo cs [] true
    else splitWsGo cs (c :: acc) false

/-- ECMAScript `str.split(/\s+/)`: splits at each maximal whitespace run and,
unlike e.g. Python's default split, keeps the empty fragments produced by a
separator match at the very start or very end of the string
(`" a ".split(/\s+/)` is `["", "a", ""]`). -/
def jsSplitWs (s : String) : List String := splitWsGo s.data [] false

/-- ECMAScript `String.prototype.includes`: substring containment, with the
empty string contained in everything. -/
def jsIncludes (s sub : String) : Bool :=
  (List.range (s.data.length + 1)).any fun i => sub.data.isPrefixOf (s.data.drop i)

/-- Characters matched by the source's regex `/[_,.?!-()]/g` (line 265).  In an
ECMAScript character class `!-(` is a *range* from `!` (U+0021) to `(` (U+0028),
so the matched set is `_ , . ?` plus `! " # $ % & ' (` plus `)` — the hyphen
itself is consumed as the range operator and is *not* matched. -/
def isPunctChar (c : Char) : Bool :=
  c = '_' || c = ',' || c = '.' || c = '?' || (('!' ≤ c) && (c ≤ '(')) || c = ')'

/-- Combining diacritical marks, U+0300–U+036F: the class removed by the
source's `replace(/[̀-ͯ]/g, '')`. -/
def isCombiningMark (c : Char) : Bool := 0x300 ≤ c.toNat && c.toNat ≤ 0x36F

/-- Canonical/compatibility decomposition of one character, modelling the
behaviour of ECMAScript `String.prototype.normalize('NFKD')` on the Latin-1
precomposed letters (the accented characters org documents realistically
contain).  Characters outside the table — in particular all of ASCII — are
their own decomposition. -/
def nfkdChar (c : Char) : List Char :=
  match c with
  | 'À' => ['A', '\u0300'] | 'Á' => ['A', '\u0301'] | 'Â' => ['A', '\u0302']
  | 'Ã' => ['A', '\u0303'] | 'Ä' => ['A', '\u0308'] | 'Å' => ['A', '\u030A']
  | 'Ç' => ['C', '\u0327'] | 'È' => ['E', '\u0300'] | 'É' => ['E', '\u0301']
  | 'Ê' => ['E', '\u0302'] | 'Ë' => ['E', '\u0308'] | 'Ì' => ['I', '\u0300']
  | 'Í' => ['I', '\u0301'] | 'Î' => ['I', '\u0302'] | 'Ï' => ['I', '\u0308']
  | 'Ñ' => ['N', '\u0303'] | 'Ò' => ['O', '\u0300'] | 'Ó' => ['O', '\u0301']
  | 'Ô' => ['O', '\u0302'] | 'Õ' => ['O', '\u0303'] | 'Ö' => ['O', '\u0308']
  | 'Ù' => ['U', '\u0300'] | 'Ú' => ['U', '\u0301'] | 'Û' => ['U', '\u0302']
  | 'Ü' => ['U', '\u0308'] | 'Ý' => ['Y', '\u0301'] | 'à' => ['a', '\u0300']
  | 'á' => ['a', '\u0301'] | 'â' => ['a', '\u0302'] | 'ã' => ['a', '\u0303']
  | 'ä' => ['a', '\u0308'] | 'å' => ['a', '\u030A'] | 'ç' => ['c', '\u0327']
  | 'è' => ['e', '\u0300'] | 'é' => ['e', '\u0301'] | 'ê' => ['e', '\u0302']
  | 'ë' => ['e', '\u0308'] | 'ì' => ['i', '\u0300'] | 'í' => ['i', '\u0301']
  | 'î' => ['i', '\u0302'] | 'ï' => ['i', '\u0308'] | 'ñ' => ['n', '\u0303']
  | 'ò' => ['o', '\u0300'] | 'ó' => ['o', '\u0301'] | 'ô' => ['o', '\u0302']
  | 'õ' => ['o', '\u0303'] | 'ö' => ['o', '\u0308'] | 'ù' => ['u', '\u0300']
  | 'ú' => ['u', '\u0301'] | 'û' => ['u', '\u0302'] | 'ü' => ['u', '\u0308']
  | 'ý' => ['y', '\u0301'] | 'ÿ' => ['y', '\u0308']
  | _ => [c]

/-- `text.normalize('NFKD')` on a whole string. -/
def nfkd (s : String) : String := String.mk (s.data.flatMap nfkdChar)

/-- `toLowerCase` character-wise (ASCII range, which is all that survives the
diacritic stripping for the texts in scope). -/
def jsToLower (s : String) : String := String.mk (s.data.map Char.toLower)

/-- `OXTF.tokenize` (source lines 259–267).  The argument is `Option String`
because the caller sometimes omits it (`revealMatchingContent(contentRoot,
new Set())`), making `text` the JavaScript value `undefined`; the source's
`text = text ? text.trim() : ''` maps both `undefined` and `''` to `''`.
Pipeline: trim, early-out on empty, NFKD-decompose, strip combining marks,
replace the punctuation class by spaces, split on whitespace runs, lower-case
each token. -/
def tokenize (text : Option String) : List String :=
  let t : String := match text with
    | none => ""
    | some s => jsTrim s
  if t = "" then []
  else
    (jsSplitWs (String.mk
      (((nfkd t).data.filter (fun c => !isCombiningMark c)).map
        (fun c => if isPunctChar c then ' ' else c)))).map jsToLower

/-- The tokenizer as the specification's words describe it (claim C5): trim,
empty result for whitespace-only input, NFKD + strip combining marks, replace
each character of the punctuation class "`_ , . ? ! - ( )`" — read literally,
so *including* the hyphen — by a space, split on runs of whitespace (the
spec's example `Tokenize("Café, TODO!") = ["cafe", "todo"]` forces boundary
empty fragments to be dropped), lower-case every token. -/
def tokenizeSpecC5 (s : String) : List String :=
  let t := jsTrim s
  if t = "" then []
  else
    (((jsSplitWs (String.mk
      (((nfkd t).data.filter (fun c => !isCombiningMark c)).map
        (fun c =>
          if c = '_' || c = ',' || c = '.' || c = '?' || c = '!' || c = '-'
              || c = '(' || c = ')' then ' ' else c)))).filter
      (fun w => w ≠ "")).map jsToLower)

/-- The tokenizer as the amended claim describes it: identical to the spec's
words except that (a) the punctuation class is the one the regex actually
denotes — `_ , . ?`, the range `!` through `(` (that is `! " # $ % & ' (`),
and `)`, with the hyphen *not* replaced — and (b) splitting keeps the empty
fragments that arise when a replaced punctuation character sits at the start
or end of the trimmed text. -/
def tokenizeSpecC5Amended (s : String) : List String :=
  let t := jsTrim s
  if t = "" then []
  else
    ((jsSplitWs (String.mk
      (((nfkd t).data.filter (fun c => !isCombiningMark c)).map
        (fun c =>
          if c = '_' || c = ',' || c = '.' || c = '?' || c = '!' || c = '"'
              || c = '#' || c = '$' || c = '%' || c = '&' || c = '\''
              || c = '(' || c = ')' then ' ' else c)))).map jsToLower)

/-! ## The document tree

A rendered document is a tree of element and text nodes.  An element carries
its upper-cased tag name, its `id` attribute (empty when absent), its `href`
attribute, its class list, the two `data-` attributes the widget writes
(`data-oxtf-tags`, stored by the source as a JSON array of strings and
modelled as the decoded list; `data-oxtf-normalized-search-text`, a plain
string), and its ordered children.  Nodes are addressed by paths of child
indices (`Path`), which play the role of JavaScript object identity; indices
count *all* child nodes, elements and text alike, matching
`Node.childNodes`/`previousSibling`. -/

mutual

inductive Node where
  | elem (name id : String) (href : Option String) (classes : List String)
      (dsTags : Option (List String)) (dsSearch : Option String)
      (children : NodeList) : Node
  | text (s : String) : Node

inductive NodeList where
  | nil : NodeList
  | cons (hd : Node) (tl : NodeList) : NodeList

end

deriving instance DecidableEq for Node
deriving instance DecidableEq for NodeList

abbrev Path := List Nat

/-- Child at index `i` (like `node.childNodes[i]`). -/
def childAt : NodeList → Nat → Option Node
  | .nil, _ => none
  | .cons c _, 0 => some c
  | .cons _ cs, n + 1 => childAt cs n

/-- Replace the child at index `i`, leaving the list unchanged when out of range. -/
def setChild : NodeList → Nat → Node → NodeList
  | .nil, _, _ => .nil
  | .cons _ cs, 0, n => .cons n cs
  | .cons c cs, i + 1, n => .cons c (setChild cs i n)

/-- Number of children. -/
def lenNL : NodeList → Nat
  | .nil => 0
  | .cons _ cs => lenNL cs + 1

/-- The children of a node (`.nil` for a text node). -/
def childrenOf : Node → NodeList
  | .elem _ _ _ _ _ _ ch => ch
  | .text _ => .nil

/-- Whether a node is an element. -/
def isElemNode : Node → Bool
  | .elem _ _ _ _ _ _ _ => true
  | .text _ => false

/-- `nodeName` of a node (`#text` for text nodes, as in the DOM). -/
def nameOf : Node → String
  | .elem nm _ _ _ _ _ _ => nm
  | .text _ => "#text"

/-- The element's class list (empty for text nodes). -/
def classesOf : Node → List String
  | .elem _ _ _ cls _ _ _ => cls
  | .text _ => []

/-- The `id` attribute (empty for text nodes). -/
def idOf : Node → String
  | .elem _ i _ _ _ _ _ => i
  | .text _ => ""

/-- The `href` attribute, when present. -/
def hrefOf : Node → Option String
  | .elem _ _ hf _ _ _ _ => hf
  | .text _ => none

/-- The decoded `data-oxtf-tags` attribute, when present. -/
def dsTagsOf : Node → Option (List String)
  | .elem _ _ _ _ dt _ _ => dt
  | .text _ => none

/-- The `data-oxtf-normalized-search-text` attribute, when present. -/
def dsSearchOf : Node → Option String
  | .elem _ _ _ _ _ ds _ => ds
  | .text _ => none

/-- Node lookup at an absolute path (the root is `[]`). -/
def getN : Node → Path → Option Node
  | n, [] => some n
  | n, i :: r =>
    match childAt (childrenOf n) i with
    | some c => getN c r
    | none => none

/-- Apply `f` to the node at path `p`, leaving the tree unchanged when the
path does not exist.  This is the single mutation primitive: every DOM write
the source performs (classList edits, dataset writes) is an instance of it. -/
def modifyAt : Node → Path → (Node → Node) → Node
  | n, [], f => f n
  | n, i :: r, f =>
    match n with
    | .text s => .text s
    | .elem nm id hf cls dt ds ch =>
      match childAt ch i with
      | some c => .elem nm id hf cls dt ds (setChild ch i (modifyAt c r f))
      | none => .elem nm id hf cls dt ds ch

/-- Boolean path-extension test: `pfx p q` iff `p` is a prefix of `q`
(every node is inside its own subtree). -/
def pfx : Path → Path → Bool
  | [], _ => true
  | _ :: _, [] => false
  | i :: p, j :: q => i == j && pfx p q

/-! ## Mutations used by the filter engine -/

/-- `classList.remove(OXTF.invisibleClassName)` on one node. -/
def removeInvRoot : Node → Node
  | .elem nm id hf cls dt ds ch =>
      .elem nm id hf (cls.filter (fun c => c ≠ invisibleClassName)) dt ds ch
  | .text s => .text s

/-- `classList.add(OXTF.invisibleClassName)` on one node (a token list never
holds duplicates, so adding is conditional membership append). -/
def addInvRoot : Node → Node
  | .elem nm id hf cls dt ds ch =>
      .elem nm id hf
        (if cls.contains invisibleClassName then cls else cls ++ [invisibleClassName])
        dt ds ch
  | .text s => .text s

mutual

/-- `revealSubtree` body (source lines 335–339): remove the invisible class
from a node and from every descendant that carries it — equivalently, map the
removal over the whole subtree. -/
def subtreeRemoveInv : Node → Node
  | .elem nm id hf cls dt ds ch =>
      .elem nm id hf (cls.filter (fun c => c ≠ invisibleClassName)) dt ds
        (subtreeRemoveInvL ch)
  | .text s => .text s

def subtreeRemoveInvL : NodeList → NodeList
  | .nil => .nil
  | .cons c cs => .cons (subtreeRemoveInv c) (subtreeRemoveInvL cs)

end

/-- `OXTF.revealSubtree` applied at a path of the document. -/
def revealSubtreeAt (t : Node) (p : Path) : Node := modifyAt t p subtreeRemoveInv

/-- Add the invisible class at one path (one step of the hide pass). -/
def addInvAt (t : Node) (p : Path) : Node := modifyAt t p addInvRoot

/-- Remove the invisible class at one path only (not the subtree). -/
def removeInvAt (t : Node) (p : Path) : Node := modifyAt t p removeInvRoot

/-- Observable hidden-state: does the node at `p` carry the invisible class?
`false` for text nodes and non-existent paths. -/
def classInv (t : Node) (p : Path) : Bool :=
  match getN t p with
  | some n => (classesOf n).contains invisibleClassName
  | none => false

/-! ## Source predicates on nodes -/

/-- ECMAScript `String.prototype.startsWith`. -/
def strStarts (s p : String) : Bool := p.data.isPrefixOf s.data

/-- The regex test `nodeName.match(/^H[1-9]/)`: an unanchored-prefix match, so
any name starting with `H` and a digit 1–9 passes. -/
def isHNames (nm : String) : Bool :=
  match nm.data with
  | 'H' :: d :: _ => '1' ≤ d && d ≤ '9'
  | _ => false

/-- `firstElementChild` with its child index: the first child that is an
element, skipping text nodes. -/
def firstElemChildAux : NodeList → Nat → Option (Nat × Node)
  | .nil, _ => none
  | .cons c cs, i => if isElemNode c then some (i, c) else firstElemChildAux cs (i + 1)

/-- `firstElementChild` of a node, with its child index. -/
def firstElemChild (n : Node) : Option (Nat × Node) := firstElemChildAux (childrenOf n) 0

/-- `OXTF.isHeadingElement` (source lines 107–121): a `H1`…-named element, or
a `LI` whose first element child is an `A` whose `id` starts with `org`
(JavaScript truthiness: an empty `id` fails that branch) or whose `href`
attribute starts with `#org`. -/
def isHeadingElement (n : Node) : Bool :=
  if isHNames (nameOf n) then true
  else if nameOf n == "LI" then
    match firstElemChild n with
    | some (_, a) =>
      nameOf a == "A" &&
        ((idOf a ≠ "" && strStarts (idOf a) "org") ||
         (match hrefOf a with
          | some h => strStarts h "#org"
          | none => false))
    | none => false
  else false

/-- A tag name that is exactly `H1` … `H9`. -/
def isExactHName (nm : String) : Bool :=
  match nm.data with
  | ['H', d] => '1' ≤ d && d ≤ '9'
  | _ => false

/-- Whether a node is matched by the `querySelectorAll` selector
`'li:has(> a:first-child),h1,h2,…,h9'` of `OXTF.getAllHeadingElements` *and*
passes the `isHeadingElement` filter.  The selector names the tags `h1`–`h9`
exactly, so (unlike the bare regex) a hypothetical `H10` element is not
collected; the `li:has(> a:first-child)` part is subsumed by the `LI` branch
of `isHeadingElement`. -/
def isCollectedHeading (n : Node) : Bool :=
  (isExactHName (nameOf n) || nameOf n == "LI") && isHeadingElement n

/-! ## Path enumeration (document order) -/

mutual

/-- All strict-descendant element paths of a node, in document (pre-)order —
the order `querySelectorAll`/`getElementsByTagName` deliver. -/
def descElemPaths : Node → List Path
  | .text _ => []
  | .elem _ _ _ _ _ _ ch => descElemPathsL ch 0

def descElemPathsL : NodeList → Nat → List Path
  | .nil, _ => []
  | .cons c cs, i =>
    ((if isElemNode c then [[i]] else []) ++ (descElemPaths c).map (fun p => i :: p))
      ++ descElemPathsL cs (i + 1)

end

/-- Absolute paths of the strict-descendant elements of the node at `c`. -/
def strictDescElemPathsAt (t : Node) (c : Path) : List Path :=
  match getN t c with
  | some n => (descElemPaths n).map (fun p => c ++ p)
  | none => []

/-- Whether the node at `p` is a collected heading (`false` off the tree). -/
def isCollectedHeadingAtB (t : Node) (p : Path) : Bool :=
  match getN t p with
  | some n => isCollectedHeading n
  | none => false

/-- `OXTF.getAllHeadingElements(contentRoot)` (source lines 127–130): absolute
paths of all heading elements below the content root, in document order. -/
def getAllHeadingElements (t : Node) (cr : Path) : List Path :=
  (strictDescElemPathsAt t cr).filter (isCollectedHeadingAtB t)

/-! ## Filter engine: matching -/

/-- `OXTF.headingTags` (source lines 245–250): the cached resolved tag set of
a heading, decoded from `data-oxtf-tags`; `[]` when the attribute is absent
(JavaScript truthiness of the missing dataset entry). -/
def headingTags (n : Node) : List String :=
  match dsTagsOf n with
  | some l => l
  | none => []

/-- `OXTF.headingMatches` (source lines 307–319): all search words must occur
as substrings of the cached normalized search text; a heading whose attribute
is absent *or empty* (both falsy in `if (normalizedSearchText)`) never
matches. -/
def headingMatches (n : Node) (normalizedSearchWords : List String) : Bool :=
  match dsSearchOf n with
  | some s => if s = "" then false else normalizedSearchWords.all fun w => jsIncludes s w
  | none => false

/-- The per-heading body of `revealMatchingContent`'s selection loop (source
lines 367–386): every selected tag must be contained in the heading's cached
tag set, and, when search tokens are present, `headingMatches` must hold. -/
def headingQualifies (t : Node) (sel toks : List String) (p : Path) : Bool :=
  match getN t p with
  | some h =>
    (sel.all fun tag => (headingTags h).contains tag) &&
      (toks.isEmpty || headingMatches h toks)
  | none => false

/-- The cached tag set of the heading at a path. -/
def headingTagsAt (t : Node) (p : Path) : List String :=
  match getN t p with
  | some h => headingTags h
  | none => []

/-- `headingsToShow`: the qualifying headings, in document order. -/
def qualifyingHeadings (t : Node) (cr : Path) (sel toks : List String) : List Path :=
  (getAllHeadingElements t cr).filter (headingQualifies t sel toks)

/-! ## Filter engine: visibility recompute -/

/-- A top-level content container: the selector
`'div#text-table-of-contents, div.outline-2'` (source lines 356, 389). -/
def isTopContainer (n : Node) : Bool :=
  nameOf n == "DIV" &&
    (idOf n == "text-table-of-contents" || (classesOf n).contains "outline-2")

/-- Absolute paths of the top-level content containers below the content root. -/
def containerPaths (t : Node) (cr : Path) : List Path :=
  (strictDescElemPathsAt t cr).filter fun p =>
    match getN t p with
    | some n => isTopContainer n
    | none => false

/-- Whether the node at `p` is a heading-level (`H1`…`H9`) element — the
`elem.nodeName.match(/^H[0-9]$/)` test of source line 400, `false` off the
tree. -/
def isHNamesAtB (t : Node) (p : Path) : Bool :=
  ((getN t p).map fun n => isHNames (nameOf n)).getD false

/-- Split a non-empty path into its parent and final index. -/
def splitLast : Path → Option (Path × Nat)
  | [] => none
  | [i] => some ([], i)
  | i :: r =>
    match splitLast r with
    | some (q, j) => some (i :: q, j)
    | none => none

/-- Indices of the element children of a node list (accumulating from `i`). -/
def elemIndicesAux : NodeList → Nat → List Nat
  | .nil, _ => []
  | .cons c cs, i => (if isElemNode c then [i] else []) ++ elemIndicesAux cs (i + 1)

/-- The `nextElementSibling` chain of the node at `p`: paths of the element
siblings that follow it, in order (source lines 402–406). -/
def followingSiblingElemPaths (t : Node) (p : Path) : List Path :=
  match splitLast p with
  | some (q, i) =>
    match getN t q with
    | some parent =>
      ((elemIndicesAux (childrenOf parent) 0).filter fun j => i < j).map fun j => q ++ [j]
    | none => []
  | none => []

/-- One iteration of `revealAncestorsSparsely`'s loop (source lines 343–351)
at ancestor path `a`: un-hide the ancestor itself and, when its first element
child is an anchor or heading element, reveal that child's whole subtree. -/
def ancStep (t : Node) (a : Path) : Node :=
  match getN (removeInvAt t a) a with
  | some n =>
    match firstElemChild n with
    | some (i, c) =>
      if nameOf c == "A" || isHNames (nameOf c) then
        revealSubtreeAt (removeInvAt t a) (a ++ [i])
      else removeInvAt t a
    | none => removeInvAt t a
  | none => removeInvAt t a

/-- The proper prefixes of a path, longest (the parent) first — the order the
`parentNode` walk visits the ancestor chain, ending at the tree root. -/
def properPrefixesLongestFirst (p : Path) : List Path :=
  (List.range p.length).reverse.map fun k => p.take k

/-- `revealAncestorsSparsely(elem)` (source lines 341–352) for the node at
`p`: the ancestor loop runs from `elem.parentNode` up to the tree root (in the
browser it stops at the document node, the first non-element ancestor). -/
def revealAncestorsSparselyAt (t : Node) (p : Path) : Node :=
  (properPrefixesLongestFirst p).foldl ancStep t

/-- The per-heading body of the reveal loop (source lines 399–410): reveal
the heading's subtree; when the heading is a `H1`…-named element also reveal
every following element sibling's subtree; then reveal its ancestors
sparsely.  (The sibling chain is read from the current tree; class edits do
not change the tree's structure, so the chain is the static one.) -/
def revealForHeading (t : Node) (hp : Path) : Node :=
  let t1 := revealSubtreeAt t hp
  let t2 :=
    if isHNamesAtB t1 hp then
      (followingSiblingElemPaths t1 hp).foldl revealSubtreeAt t1
    else t1
  revealAncestorsSparselyAt t2 hp

/-- The filtered-path visibility recompute (source lines 388–416): hide every
container descendant that is not a qualifying heading, then run the reveal
loop for each qualifying heading, then unconditionally reveal the filter
list's subtree and its ancestors. -/
def applyVisibility (t : Node) (cr fl : Path) (headingsToShow : List Path) : Node :=
  let toHide :=
    ((containerPaths t cr).flatMap fun c => strictDescElemPathsAt t c).filter
      fun p => !headingsToShow.contains p
  let t1 := toHide.foldl addInvAt t
  let t2 := headingsToShow.foldl revealForHeading t1
  revealAncestorsSparselyAt (revealSubtreeAt t2 fl) fl

/-- The fast-path clear (source lines 355–361): remove the invisible class
from every element below each top-level content container (the containers
themselves are not touched; elements outside every container are not
touched). -/
def clearStrictDesc : Node → Node
  | .elem nm id hf cls dt ds ch => .elem nm id hf cls dt ds (subtreeRemoveInvL ch)
  | .text s => .text s

/-- Apply the fast-path clear below every top-level content container. -/
def fastClear (t : Node) (cr : Path) : Node :=
  (containerPaths t cr).foldl (fun acc c => modifyAt acc c clearStrictDesc) t

/-- `OXTF.revealMatchingContent` (source lines 332–419).  `sel` models the
JavaScript `Set` of selected tags as its iteration list (every observation
the code makes of it — `size === 0`, iteration for the superset test — is
membership-determined); `fl` is the path of the filter-list element
(`document.getElementById(OXTF.filterListId)`).  Returns the updated tree
(the state after the batched `requestAnimationFrame` callback has run) and
the returned value: `none` for the unfiltered sentinel `null`, otherwise the
accumulated reachable tag set. -/
def revealMatchingContent (t : Node) (cr fl : Path) (sel : List String)
    (searchText : Option String) : Node × Option (List String) :=
  let searchTokens := tokenize searchText
  if sel.isEmpty && searchTokens.isEmpty then
    (fastClear t cr, none)
  else
    let headingsToShow := qualifyingHeadings t cr sel searchTokens
    let visibleContentTags := headingsToShow.flatMap fun p => headingTagsAt t p
    (applyVisibility t cr fl headingsToShow, some visibleContentTags)

/-! ## Metadata collector: tags -/

/-- `isTodoSpan` (source lines 142–146). -/
def isTodoSpan (n : Node) : Bool :=
  isElemNode n && nameOf n == "SPAN" &&
    ((classesOf n).contains "todo" || (classesOf n).contains "done")

/-- `isTagSpan` (source lines 148–152). -/
def isTagSpan (n : Node) : Bool :=
  isElemNode n && nameOf n == "SPAN" && (classesOf n).contains "tag"

/-- `isHeadingOrAnchor` (source lines 154–156): an `A` element or a
`^H[1-9]`-named element (applied to child nodes; a text node's name `#text`
matches neither). -/
def isHeadingOrAnchor (n : Node) : Bool := nameOf n == "A" || isHNames (nameOf n)

/-- `Set.add` on the insertion-ordered list model of a JavaScript `Set`. -/
def addTag (acc : List String) (s : String) : List String :=
  if acc.contains s then acc else acc ++ [s]

/-- Inner loop of `collectSpanTags` for a `span.tag` element: each `SPAN`
child contributes its class names, except the invisible marker class. -/
def collectTagSpanChildren : NodeList → List String → List String
  | .nil, acc => acc
  | .cons c cs, acc =>
    collectTagSpanChildren cs
      (if nameOf c == "SPAN" then
        ((classesOf c).filter fun x => x ≠ invisibleClassName).foldl addTag acc
      else acc)

/-- `collectSpanTags` (source lines 158–174): a TODO/DONE span contributes
its own class names minus `todo`/`done`/invisible; a tag span contributes the
class names of its `SPAN` children minus invisible. -/
def collectSpanTags (n : Node) (acc : List String) : List String :=
  if isTodoSpan n then
    ((classesOf n).filter fun c => c ≠ "todo" && c ≠ "done" && c ≠ invisibleClassName).foldl
      addTag acc
  else if isTagSpan n then collectTagSpanChildren (childrenOf n) acc
  else acc

/-- Grandchild sweep: `collectSpanTags` over the children of a heading or
anchor child (source lines 186–190). -/
def collectGrandchildren : NodeList → List String → List String
  | .nil, acc => acc
  | .cons g gs, acc => collectGrandchildren gs (collectSpanTags g acc)

/-- One level of the upward tag walk (source lines 182–191): over the
children of the current node, markers contribute directly and heading/anchor
children contribute their own children's markers. -/
def collectLevelChildren : NodeList → List String → List String
  | .nil, acc => acc
  | .cons c cs, acc =>
    collectLevelChildren cs
      (if isTagSpan c || isTodoSpan c then collectSpanTags c acc
       else if isHeadingOrAnchor c then collectGrandchildren (childrenOf c) acc
       else acc)

/-- One level of the upward walk, at a path of the document. -/
def collectLevel (t : Node) (p : Path) (acc : List String) : List String :=
  match getN t p with
  | some n => collectLevelChildren (childrenOf n) acc
  | none => acc

/-- A node matched by the marker selector `'span.tag, span.todo, span.done'`
(source line 178). -/
def isMarkerSpan (n : Node) : Bool :=
  nameOf n == "SPAN" &&
    ((classesOf n).contains "tag" || (classesOf n).contains "todo"
      || (classesOf n).contains "done")

/-- Whether the node at `p` is a marker span (`false` off the tree). -/
def isMarkerSpanAtB (t : Node) (p : Path) : Bool :=
  match getN t p with
  | some n => isMarkerSpan n
  | none => false

/-- Absolute paths of all marker spans below the content root, document order. -/
def markerPaths (t : Node) (cr : Path) : List Path :=
  (strictDescElemPathsAt t cr).filter (isMarkerSpanAtB t)

/-- The prefixes of `p` longer than `stopLen`, longest (that is, `p` itself)
first: the levels the `while (n && … && n !== contentRoot)` walk visits. -/
def chainDown (p : Path) (stopLen : Nat) : List Path :=
  (List.range (p.length - stopLen)).map fun k => p.take (p.length - k)

/-- `allTagValues` for one marker (source lines 179–193): the union collected
over every level of the marker's ancestor chain, from the marker itself up to
but excluding the content root. -/
def markerWalkUnion (t : Node) (cr p : Path) : List String :=
  (chainDown p cr.length).foldl (fun acc lv => collectLevel t lv acc) []

/-- Whether the node at `q` passes `OXTF.isHeadingElement` (`false` off the
tree). -/
def isHeadingElementAtB (t : Node) (q : Path) : Bool :=
  match getN t q with
  | some n => isHeadingElement n
  | none => false

/-- The attach walk (source lines 196–203): from the marker's parent element
upward, excluding the content root, the nearest node that `isHeadingElement`
accepts. -/
def nearestHeadingPath (t : Node) (cr p : Path) : Option Path :=
  (chainDown p.dropLast cr.length).find? (isHeadingElementAtB t)

/-- Write the `data-oxtf-tags` attribute (`JSON.stringify` of the set). -/
def setDsTags (v : List String) : Node → Node
  | .elem nm id hf cls _ ds ch => .elem nm id hf cls (some v) ds ch
  | .text s => .text s

/-- `OXTF.collectTags` (source lines 140–209): for each marker span, in
document order, compute its walk union, attach it (overwriting) to the
marker's nearest enclosing heading when one exists, and accumulate every
value into the returned document tag universe.  The marker list is the
`querySelectorAll` snapshot of the input tree; the walks read the threaded
tree (dataset writes do not change what the walks read).  `ctStep` is the
body of the marker loop for one marker span. -/
def ctStep (cr : Path) (acc : Node × List String) (mp : Path) : Node × List String :=
  (match nearestHeadingPath acc.1 cr mp with
   | some hq => modifyAt acc.1 hq (setDsTags (markerWalkUnion acc.1 cr mp))
   | none => acc.1,
   (markerWalkUnion acc.1 cr mp).foldl addTag acc.2)

def collectTags (t : Node) (cr : Path) : Node × List String :=
  (markerPaths t cr).foldl (ctStep cr) (t, [])

/-! ## Metadata collector: heading keywords -/

mutual

/-- `textContent` of a node: the concatenation of all descendant text. -/
def textContent : Node → String
  | .text s => s
  | .elem _ _ _ _ _ _ ch => textContentL ch

def textContentL : NodeList → String
  | .nil => ""
  | .cons c cs => textContent c ++ textContentL cs

end

/-- One-or-more decimal digits at the front of a character list, returning
the rest. -/
def matchDigits1 (l : List Char) : Option (List Char) :=
  match l with
  | c :: rest => if ('0' ≤ c && c ≤ '9') then some (rest.dropWhile fun d => '0' ≤ d && d ≤ '9') else none
  | [] => none

/-- The statistics-cookie regex `/^\[[0-9]+\/[0-9]+\]$/` (source line 217). -/
def isStatsCookie (s : String) : Bool :=
  match s.data with
  | '[' :: rest =>
    match matchDigits1 rest with
    | some ('/' :: r2) =>
      match matchDigits1 r2 with
      | some r3 => r3 == [']']
      | none => false
    | _ => false
  | _ => false

/-- Contribution of one child node to a heading's own text (source lines
220–235): text nodes verbatim; `B`/`I` wrapped in `*…*` / `/…/`; `CODE`
unless it is a statistics cookie; `P`, `SUP`, `SUB`, `SPAN`, `A` verbatim;
anything else contributes nothing. -/
def headingChildText (c : Node) : String :=
  match c with
  | .text s => s
  | .elem nm _ _ _ _ _ _ =>
    if nm == "B" then "*" ++ textContent c ++ "*"
    else if nm == "I" then "/" ++ textContent c ++ "/"
    else if nm == "CODE" then (if isStatsCookie (textContent c) then "" else textContent c)
    else if nm == "P" || nm == "SUP" || nm == "SUB" || nm == "SPAN" || nm == "A" then
      textContent c
    else ""

/-- Fold of `headingChildText` over a child list. -/
def headingTextContentL : NodeList → String
  | .nil => ""
  | .cons c cs => headingChildText c ++ headingTextContentL cs

/-- `OXTF.headingTextContent` (source lines 216–239). -/
def headingTextContent (n : Node) : String := headingTextContentL (childrenOf n)

/-- Sufficient fuel for the ancestor-text walk started at a given path: every
step of the walk decreases the path's index sum plus length. -/
def hkWalkFuel (p : Path) : Nat := p.sum + p.length + 1

/-- The own text (`OXTF.headingTextContent`) of the node at `p`, the empty
string off the tree. -/
def headingOwnTextAt (t : Node) (p : Path) : String :=
  match getN t p with
  | some n => headingTextContent n
  | none => ""

/-- The ancestor-text walk of `collectHeadingKeywords` (source lines 282–290),
written with explicit fuel so that it is structurally recursive; `hkWalkFuel`
always supplies enough, since each step decreases the path's index sum plus
length.  State: the current node's absolute path and the accumulated combined
text.  Steps: stop at the content root; at a heading prepend its own text and
move to the parent; otherwise move to the previous sibling when one exists,
else to the parent. -/
def hkWalk (t : Node) (cr : Path) : Nat → Path → String → String
  | 0, _, acc => acc
  | fuel + 1, cur, acc =>
    if cur.length ≤ cr.length then acc
    else
      match splitLast cur with
      | some (q, i) =>
        if isHeadingElementAtB t cur then
          hkWalk t cr fuel q (headingOwnTextAt t cur ++ " " ++ acc)
        else if i = 0 then hkWalk t cr fuel q acc
        else hkWalk t cr fuel (q ++ [i - 1]) acc
      | none => acc

/-- The combined heading text: the heading's own text with every
ancestor-walk heading's own text prepended (source lines 281–290). -/
def combinedHeadingText (t : Node) (cr hp : Path) : String :=
  hkWalk t cr (hkWalkFuel hp.dropLast) hp.dropLast (headingOwnTextAt t hp)

/-- `Array.prototype.join(' ')`. -/
def joinSp : List String → String
  | [] => ""
  | [s] => s
  | s :: rest => s ++ " " ++ joinSp rest

/-- Write the `data-oxtf-normalized-search-text` attribute. -/
def setDsSearch (v : String) : Node → Node
  | .elem nm id hf cls dt _ ch => .elem nm id hf cls dt (some v) ch
  | .text s => .text s

/-- `OXTF.collectHeadingKeywords` (source lines 277–297): for every heading
element (snapshot list, document order) cache the space-joined tokenization
of its combined text and accumulate all keywords; `hkStep` is the body of
the heading loop for one heading. -/
def hkStep (cr : Path) (acc : Node × List String) (hp : Path) : Node × List String :=
  (modifyAt acc.1 hp
    (setDsSearch (joinSp (tokenize (some (combinedHeadingText acc.1 cr hp))))),
   (tokenize (some (combinedHeadingText acc.1 cr hp))).foldl addTag acc.2)

def collectHeadingKeywords (t : Node) (cr : Path) : Node × List String :=
  (getAllHeadingElements t cr).foldl (hkStep cr) (t, [])

/-! ## Persistence adapter and the caller -/

mutual

/-- Expect the opening quote of the next array element. -/
def jsonElems : List Char → List String → Option (List String)
  | [], _ => none
  | c :: rest, acc => if c = '"' then jsonStr rest [] acc else none

/-- Inside a string literal; `cur` holds its characters in reverse. -/
def jsonStr : List Char → List Char → List String → Option (List String)
  | [], _, _ => none
  | c :: rest, cur, acc =>
    if c = '"' then jsonAfter rest (acc ++ [String.mk cur.reverse])
    else if c = '\\' then
      match rest with
      | c2 :: rest2 => if c2 = '"' || c2 = '\\' then jsonStr rest2 (c2 :: cur) acc else none
      | [] => none
    else jsonStr rest (c :: cur) acc

/-- After a closed string literal: a comma continues, `]` must end the input. -/
def jsonAfter : List Char → List String → Option (List String)
  | [], _ => none
  | c :: rest, acc =>
    if c = ',' then jsonElems rest acc
    else if c = ']' then (match rest with | [] => some acc | _ :: _ => none)
    else none

end

/-- A minimal parser for the JSON documents `saveSelectedTags` writes:
`JSON.stringify` of an array of strings (with `\"` and `\\` the only escape
forms, which CSS class names — the only strings stored — never need).
Models `JSON.parse` on exactly this sublanguage; every other input is a parse
error, as `JSON.parse` throws on non-JSON input. -/
def jsonParseStringArray (s : String) : Except String (List String) :=
  match s.data with
  | '[' :: ']' :: [] => .ok []
  | '[' :: rest =>
    match jsonElems rest [] with
    | some l => .ok l
    | none => .error "unexpected token"
  | _ => .error "unexpected token"

/-- `OXTF.persistence.loadSelectedTags` (source lines 28–34).  The store is
`none` when `window.localStorage` is unavailable; otherwise a lookup list
from keys to stored strings.  An absent key yields `[]` (the `dbValue ? … :
[]` falsy branch, which an empty stored string also takes); a present value
is fed to `JSON.parse`, whose failure — the source has no try/catch — is the
`Except.error` case. -/
def loadSelectedTags (db : Option (List (String × String))) (key : String) :
    Except String (List String) :=
  match db with
  | none => .ok []
  | some store =>
    match (store.find? fun kv => kv.1 == key).map Prod.snd with
    | none => .ok []
    | some v => if v = "" then .ok [] else jsonParseStringArray v

/-- The restore step of `OXTF.init` (source lines 428–429): the persisted
selection filtered to tags present in the document; a load error propagates
(aborting `init`). -/
def initRestoredSelection (db : Option (List (String × String))) (key : String)
    (documentTagSet : List String) : Except String (List String) :=
  match loadSelectedTags db key with
  | .ok tags => .ok (tags.filter fun tg => documentTagSet.contains tg)
  | .error e => .error e

/-- The observable outcome of one `updateFiltering` run (source lines
434–460): the final tree, the final selection, what `saveSelectedTags`
persists, whether the self-correction reset fired, and the result of the last
`revealMatchingContent` call (used for the button-disabling sweep). -/
structure UpdateOutcome where
  tree : Node
  selection : List String
  saved : List String
  wasReset : Bool
  lastResult : Option (List String)
  deriving DecidableEq

/-- `updateFiltering` (source lines 434–460): run the recompute; when it
returns a non-null empty reachable set while the trimmed search text is
empty, re-run with a cleared selection — the second call omits the
`searchText` argument — and clear the UI selection; finally persist the
selection. -/
def updateFiltering (t : Node) (cr fl : Path) (sel : List String)
    (searchText : String) : UpdateOutcome :=
  let r1 := revealMatchingContent t cr fl sel (some searchText)
  match r1.2 with
  | some tags =>
    if tags.isEmpty && ((jsTrim searchText).data.length == 0) then
      let r2 := revealMatchingContent r1.1 cr fl [] none
      { tree := r2.1, selection := [], saved := [], wasReset := true, lastResult := r2.2 }
    else
      { tree := r1.1, selection := sel, saved := sel, wasReset := false, lastResult := r1.2 }
  | none =>
    { tree := r1.1, selection := sel, saved := sel, wasReset := false, lastResult := r1.2 }

/-- Element-ness of the node at a path (`false` off the tree). -/
def isElemAtB (t : Node) (p : Path) : Bool :=
  match getN t p with
  | some n => isElemNode n
  | none => false

/-- The ancestor-step check of `revealAncestorsSparsely`, as a predicate on
the starting tree: the ancestor at `a` has a first element child (index `i`)
that is an anchor or heading element, and `q` lies in that child's subtree. -/
def ancFirstChildCover (t : Node) (a q : Path) : Bool :=
  match getN t a with
  | some n =>
    match firstElemChild n with
    | some (i, c) => (nameOf c == "A" || isHNames (nameOf c)) && pfx (a ++ [i]) q
    | none => false
  | none => false

/-! ## Claim-side formulations

Definitions in this block follow the specification's words (they are the
comparison side of refinement claims), not the source. -/

/-- The cached `searchTokens` joined text of the heading at `p` — the
`data-oxtf-normalized-search-text` value, read as the empty string when
absent. -/
def cachedSearchText (t : Node) (p : Path) : String :=
  match getN t p with
  | some n => (dsSearchOf n).getD ""
  | none => ""

/-- Claim C1's qualification condition, as stated: (a) the heading's
effective tags are a superset of the selected tags, and (b) when the
tokenized search is non-empty, the cached search text contains every search
token as a substring. -/
@[reducible] def claimQualC1 (t : Node) (sel toks : List String) (p : Path) : Prop :=
  (∀ tag ∈ sel, tag ∈ headingTagsAt t p) ∧
    (toks ≠ [] → ∀ w ∈ toks, jsIncludes (cachedSearchText t p) w = true)

/-- The amended qualification condition: as C1 states it, except that clause
(b) additionally requires the cached search text to be non-empty (the
source's `if (normalizedSearchText)` truthiness guard). -/
@[reducible] def claimQualC1Amended (t : Node) (sel toks : List String) (p : Path) : Prop :=
  (∀ tag ∈ sel, tag ∈ headingTagsAt t p) ∧
    (toks ≠ [] →
      cachedSearchText t p ≠ "" ∧ ∀ w ∈ toks, jsIncludes (cachedSearchText t p) w = true)

/-- Claim C6's description of the node set one qualifying heading's reveal
step marks visible: the heading's own subtree; when the heading is a
heading-level element, each following sibling element's subtree (the body
content the spec describes); each ancestor-chain node; and, for each ancestor
whose first element child is an anchor or heading marker, that first child's
subtree — never an ancestor's whole subtree. -/
def claimRevealSetC6 (t : Node) (hp q : Path) : Bool :=
  pfx hp q ||
  (isHNamesAtB t hp &&
    (followingSiblingElemPaths t hp).any fun s => pfx s q) ||
  (pfx q hp && !(q == hp)) ||
  ((properPrefixesLongestFirst hp).any fun a => ancFirstChildCover t a q)

/-! ## Concrete documents used by counterexamples and witnesses -/

/-- List-to-`NodeList` conversion for concrete documents. -/
def ofL : List Node → NodeList
  | [] => .nil
  | c :: cs => .cons c (ofL cs)

/-- A plain element with only a tag name and children. -/
def mkE (nm : String) (ch : List Node) : Node := .elem nm "" none [] none none (ofL ch)

/-- An element with classes. -/
def mkEC (nm : String) (cls : List String) (ch : List Node) : Node :=
  .elem nm "" none cls none none (ofL ch)

/-- A content root whose only heading has no text at all (its collected
search text is the empty string); the filter list sits at path `[1]`. -/
def docEmptyHeading : Node :=
  mkE "DIV" [mkE "H2" [], .elem "DIV" "oxtf-filter-list" none [] none none .nil]

/-- `docEmptyHeading` after the keyword collector has run. -/
def docEmptyHeadingC : Node := (collectHeadingKeywords docEmptyHeading []).1

/-- A two-level table-of-contents: the parent entry carries the tag `work`,
the nested child entry carries no tags. -/
def docTocTwoLevel : Node :=
  mkE "DIV"
    [.elem "DIV" "text-table-of-contents" none [] none none (ofL
      [mkE "UL"
        [mkE "LI"
          [.elem "A" "" (some "#org1") [] none none (ofL
            [.text "Parent ",
             mkEC "SPAN" ["tag"] [mkEC "SPAN" ["work"] [.text "work"]]]),
           mkE "UL"
             [mkE "LI"
               [.elem "A" "" (some "#org2") [] none none (ofL [.text "Child"])]]]]])]

/-- `docTocTwoLevel` after the tag collector has run. -/
def docTocTwoLevelC : Node := (collectTags docTocTwoLevel []).1

/-- A content root with a paragraph that is hidden in the markup and sits
outside every top-level content container. -/
def docHiddenPara : Node := mkE "DIV" [mkEC "P" ["oxtf-invisible"] []]

/-- A content root whose filter-list element (path `[0]`) starts out hidden
and sits outside every top-level content container. -/
def docHiddenControl : Node :=
  mkE "DIV" [.elem "DIV" "oxtf-filter-list" none ["oxtf-invisible"] none none .nil]

/-- An outline with heading text ending in punctuation: `H2 "Intro."`
containing `H3 "Child"`. -/
def docIntroChild : Node :=
  mkE "DIV"
    [mkEC "DIV" ["outline-2"]
      [mkE "H2" [.text "Intro."],
       mkEC "DIV" ["outline-3"] [mkE "H3" [.text "Child"]]]]

/-- `docIntroChild` after the keyword collector has run. -/
def docIntroChildC : Node := (collectHeadingKeywords docIntroChild []).1

/-- A one-section org-export-shaped document: `H2 "First"` tagged `work`,
followed by body text. -/
def docFirstWork : Node :=
  mkE "DIV"
    [mkEC "DIV" ["outline-2"]
      [mkE "H2"
        [.text "First ", mkEC "SPAN" ["tag"] [mkEC "SPAN" ["work"] [.text "work"]]],
       mkEC "DIV" ["outline-text-2"] [mkE "P" [.text "body"]]],
     .elem "DIV" "oxtf-filter-list" none [] none none .nil]

/-- `docFirstWork` after both collectors have run. -/
def docFirstWorkC : Node :=
  (collectHeadingKeywords (collectTags docFirstWork []).1 []).1

/-- The character list of one JSON string literal, for strings that need no
escaping (CSS class names). -/
def jsonQuote (s : String) : List Char := '"' :: (s.data ++ ['"'])

/-- Comma-separated string literals: the body of a stringified array. -/
def jsonBody : List String → List Char
  | [] => []
  | [s] => jsonQuote s
  | s :: rest => jsonQuote s ++ ',' :: jsonBody rest

/-- `JSON.stringify` of an array of strings without characters needing
escapes — the exact document `OXTF.persistence.saveSelectedTags` (source
lines 37–43) stores. -/
def jsonStringifyStringArray (l : List String) : String :=
  String.mk ('[' :: (jsonBody l ++ [']']))

/-- A string free of the two characters that would need escaping. -/
def jsonCleanString (s : String) : Bool :=
  s.data.all fun c => c ≠ '"' && c ≠ '\\'

mutual

/-- The structural skeleton of a node: class lists and the two data
attributes erased, everything else (names, ids, hrefs, child structure)
kept.  Every mutation the widget performs preserves the skeleton, and every
structural read factors through it. -/
def skel : Node → Node
  | .elem nm id hf _ _ _ ch => .elem nm id hf [] none none (skelL ch)
  | .text s => .text s

def skelL : NodeList → NodeList
  | .nil => .nil
  | .cons c cs => .cons (skel c) (skelL cs)

end

mutual

/-- A node with only the two data attributes erased: names, ids, hrefs,
class lists and child structure kept.  The two metadata collectors write
only datasets, so they preserve `core`, while every read they perform
factors through it. -/
def core : Node → Node
  | .elem nm id hf cls _ _ ch => .elem nm id hf cls none none (coreL ch)
  | .text s => .text s

def coreL : NodeList → NodeList
  | .nil => .nil
  | .cons c cs => .cons (core c) (coreL cs)

end

/-- The `data-oxtf-tags` attribute of the node at a path (`none` when the
path is off the tree, on a text node, or the attribute is absent). -/
def dsTagsAtO (t : Node) (p : Path) : Option (List String) :=
  match getN t p with
  | some n => dsTagsOf n
  | none => none

/-- The `data-oxtf-normalized-search-text` attribute of the node at a path. -/
def dsSearchAtO (t : Node) (p : Path) : Option String :=
  match getN t p with
  | some n => dsSearchOf n
  | none => none

/-! ## Theorems -/

/-! ### Path and tree-update basics -/

lemma pfx_refl (p : Path) : pfx p p = true := by
  induction p with
  | nil => rfl
  | cons i r ih => simp [pfx, ih]

lemma pfx_append (p r : Path) : pfx p (p ++ r) = true := by
  induction p with
  | nil => rfl
  | cons i q ih => simp [pfx, ih]

lemma pfx_iff_exists_append (q p : Path) : pfx q p = true ↔ ∃ r, p = q ++ r := by
  induction q generalizing p with
  | nil => simp [pfx]
  | cons j q' ih =>
    cases p with
    | nil => simp [pfx]
    | cons i p' =>
      rw [pfx, Bool.and_eq_true, beq_iff_eq, ih p']
      constructor
      · rintro ⟨hji, r, hr⟩
        exact ⟨r, by simp [hji, hr]⟩
      · rintro ⟨r, hr⟩
        rw [List.cons_append] at hr
        injection hr with h1 h2
        exact ⟨h1.symm, r, h2⟩

lemma childAt_setChild_self : ∀ (ch : NodeList) (i : Nat) (n : Node),
    childAt (setChild ch i n) i = (childAt ch i).map fun _ => n
  | .nil, i, n => by cases i <;> rfl
  | .cons c cs, 0, n => rfl
  | .cons c cs, j + 1, n => by
    show childAt (setChild cs j n) j = _
    rw [childAt_setChild_self cs j n]
    rfl

lemma childAt_setChild_ne : ∀ (ch : NodeList) (i j : Nat) (n : Node), i ≠ j →
    childAt (setChild ch j n) i = childAt ch i
  | .nil, i, j, n, _ => by cases j <;> rfl
  | .cons c cs, 0, 0, n, h => absurd rfl h
  | .cons c cs, i + 1, 0, n, h => rfl
  | .cons c cs, 0, j + 1, n, h => rfl
  | .cons c cs, i + 1, j + 1, n, h =>
    childAt_setChild_ne cs i j n (by omega)

lemma setChild_of_childAt_eq : ∀ (ch : NodeList) (i : Nat) (c : Node),
    childAt ch i = some c → setChild ch i c = ch
  | .nil, i, c, h => by cases i <;> cases h
  | .cons d ds, 0, c, h => by
    injection h with h1
    rw [setChild, h1]
  | .cons d ds, j + 1, c, h => by
    show NodeList.cons d (setChild ds j c) = _
    rw [setChild_of_childAt_eq ds j c h]

lemma getN_append : ∀ (p : Path) (t : Node) (r : Path),
    getN t (p ++ r) = (getN t p).bind fun n => getN n r
  | [], t, r => rfl
  | i :: q, t, r => by
    show (match childAt (childrenOf t) i with
      | some c => getN c (q ++ r)
      | none => none) =
      ((match childAt (childrenOf t) i with
        | some c => getN c q
        | none => none).bind fun n => getN n r)
    cases childAt (childrenOf t) i with
    | some c => exact getN_append q c r
    | none => rfl

lemma getN_modifyAt_self : ∀ (p : Path) (t : Node) (f : Node → Node),
    getN (modifyAt t p f) p = (getN t p).map f
  | [], t, f => rfl
  | i :: q, t, f => by
    cases t with
    | text s => rfl
    | elem nm id hf cls dt ds ch =>
      show getN (match childAt ch i with
        | some c => Node.elem nm id hf cls dt ds (setChild ch i (modifyAt c q f))
        | none => Node.elem nm id hf cls dt ds ch) (i :: q) = _
      cases hc : childAt ch i with
      | some c =>
        show (match childAt (setChild ch i (modifyAt c q f)) i with
          | some c => getN c q
          | none => none) = _
        rw [childAt_setChild_self, hc]
        show getN (modifyAt c q f) q = _
        rw [getN_modifyAt_self q c f]
        show _ = (match childAt ch i with | some c => getN c q | none => none).map f
        rw [hc]
      | none =>
        show (match childAt ch i with | some c => getN c q | none => none) = _
        rw [hc]
        show _ = (match childAt ch i with | some c => getN c q | none => none).map f
        rw [hc]
        rfl

lemma getN_modifyAt_append (t : Node) (p : Path) (f : Node → Node) (r : Path) :
    getN (modifyAt t p f) (p ++ r) = (getN t p).bind fun n => getN (f n) r := by
  rw [getN_append, getN_modifyAt_self]
  cases getN t p <;> rfl

lemma map_getN_modifyAt_not_pfx {α : Type} (g : Node → α)
    (hg : ∀ nm id hf cls dt ds ch ch',
      g (.elem nm id hf cls dt ds ch) = g (.elem nm id hf cls dt ds ch')) :
    ∀ (q p : Path) (t : Node) (f : Node → Node), pfx q p = false →
      (getN (modifyAt t q f) p).map g = (getN t p).map g
  | [], p, t, f, h => by simp [pfx] at h
  | j :: q', [], t, f, h => by
    cases t with
    | text s => rfl
    | elem nm id hf cls dt ds ch =>
      show (getN (match childAt ch j with
        | some c => Node.elem nm id hf cls dt ds (setChild ch j (modifyAt c q' f))
        | none => Node.elem nm id hf cls dt ds ch) []).map g = _
      cases childAt ch j with
      | some c => exact congrArg some (hg nm id hf cls dt ds _ ch)
      | none => rfl
  | j :: q', i :: p', t, f, h => by
    cases t with
    | text s => rfl
    | elem nm id hf cls dt ds ch =>
      show (getN (match childAt ch j with
        | some c => Node.elem nm id hf cls dt ds (setChild ch j (modifyAt c q' f))
        | none => Node.elem nm id hf cls dt ds ch) (i :: p')).map g = _
      cases hc : childAt ch j with
      | none => rfl
      | some c =>
        show ((match childAt (setChild ch j (modifyAt c q' f)) i with
          | some d => getN d p'
          | none => none)).map g = _
        by_cases hij : i = j
        · subst hij
          rw [childAt_setChild_self, hc]
          have hq' : pfx q' p' = false := by
            rw [show pfx (i :: q') (i :: p') = (i == i && pfx q' p') from rfl] at h
            simpa using h
          show (getN (modifyAt c q' f) p').map g = _
          rw [map_getN_modifyAt_not_pfx g hg q' p' c f hq']
          show _ = ((match childAt ch i with | some d => getN d p' | none => none)).map g
          rw [hc]
        · rw [childAt_setChild_ne ch i j _ hij]
          rfl

lemma getN_modifyAt_pfx_of_children_eq (t : Node) (q : Path) (f : Node → Node)
    (hf : ∀ n, childrenOf (f n) = childrenOf n) (p : Path)
    (hp : pfx q p = true) (hne : p ≠ q) : getN (modifyAt t q f) p = getN t p := by
  obtain ⟨r, rfl⟩ := (pfx_iff_exists_append q p).mp hp
  cases r with
  | nil => exact absurd (by simp) hne
  | cons i r' =>
    rw [getN_modifyAt_append, getN_append]
    cases getN t q with
    | none => rfl
    | some n =>
      show getN (f n) (i :: r') = getN n (i :: r')
      show (match childAt (childrenOf (f n)) i with
        | some c => getN c r'
        | none => none) =
        (match childAt (childrenOf n) i with
        | some c => getN c r'
        | none => none)
      rw [hf n]

lemma classInv_eq (t : Node) (p : Path) :
    classInv t p =
      ((getN t p).map fun n => (classesOf n).contains invisibleClassName).getD false := by
  unfold classInv
  cases getN t p <;> rfl

lemma isElemAtB_eq (t : Node) (p : Path) :
    isElemAtB t p = ((getN t p).map isElemNode).getD false := by
  unfold isElemAtB
  cases getN t p <;> rfl

/-! ### Skeleton lemmas: structure is invariant under the widget's writes -/

lemma childAt_skelL : ∀ (ch : NodeList) (i : Nat),
    childAt (skelL ch) i = (childAt ch i).map skel
  | .nil, i => by cases i <;> rfl
  | .cons c cs, 0 => rfl
  | .cons c cs, i + 1 => childAt_skelL cs i

lemma childrenOf_skel (n : Node) : childrenOf (skel n) = skelL (childrenOf n) := by
  cases n <;> rfl

lemma nameOf_skel (n : Node) : nameOf (skel n) = nameOf n := by cases n <;> rfl

lemma idOf_skel (n : Node) : idOf (skel n) = idOf n := by cases n <;> rfl

lemma hrefOf_skel (n : Node) : hrefOf (skel n) = hrefOf n := by cases n <;> rfl

lemma isElemNode_skel (n : Node) : isElemNode (skel n) = isElemNode n := by cases n <;> rfl

lemma getN_skel : ∀ (p : Path) (t : Node), getN (skel t) p = (getN t p).map skel
  | [], t => rfl
  | i :: r, t => by
    show (match childAt (childrenOf (skel t)) i with
      | some c => getN c r
      | none => none) =
      (match childAt (childrenOf t) i with
        | some c => getN c r
        | none => none).map skel
    rw [childrenOf_skel, childAt_skelL]
    cases childAt (childrenOf t) i with
    | some c =>
      show getN (skel c) r = (getN c r).map skel
      exact getN_skel r c
    | none => rfl

lemma skelL_setChild : ∀ (ch : NodeList) (i : Nat) (m : Node),
    skelL (setChild ch i m) = setChild (skelL ch) i (skel m)
  | .nil, i, m => by cases i <;> rfl
  | .cons c cs, 0, m => rfl
  | .cons c cs, i + 1, m => by
    show NodeList.cons (skel c) (skelL (setChild cs i m)) = _
    rw [skelL_setChild cs i m]
    rfl

lemma skel_modifyAt : ∀ (p : Path) (t : Node) (f : Node → Node),
    (∀ n, skel (f n) = skel n) → skel (modifyAt t p f) = skel t
  | [], t, f, hfs => hfs t
  | i :: r, t, f, hfs => by
    cases t with
    | text s => rfl
    | elem nm id hf cls dt ds ch =>
      show skel (match childAt ch i with
        | some c => Node.elem nm id hf cls dt ds (setChild ch i (modifyAt c r f))
        | none => Node.elem nm id hf cls dt ds ch) = _
      cases hc : childAt ch i with
      | none => rfl
      | some c =>
        show Node.elem nm id hf [] none none (skelL (setChild ch i (modifyAt c r f))) = _
        rw [skelL_setChild, skel_modifyAt r c f hfs]
        rw [setChild_of_childAt_eq (skelL ch) i (skel c)
          (by rw [childAt_skelL, hc]; rfl)]
        rfl

lemma skel_addInvRoot (n : Node) : skel (addInvRoot n) = skel n := by
  cases n <;> rfl

lemma skel_removeInvRoot (n : Node) : skel (removeInvRoot n) = skel n := by
  cases n <;> rfl

lemma skel_setDsTags (v : List String) (n : Node) : skel (setDsTags v n) = skel n := by
  cases n <;> rfl

lemma skel_setDsSearch (v : String) (n : Node) : skel (setDsSearch v n) = skel n := by
  cases n <;> rfl

mutual

lemma skel_subtreeRemoveInv : ∀ (n : Node), skel (subtreeRemoveInv n) = skel n
  | .text s => rfl
  | .elem nm id hf cls dt ds ch => by
    show Node.elem nm id hf [] none none (skelL (subtreeRemoveInvL ch)) =
      Node.elem nm id hf [] none none (skelL ch)
    rw [skelL_subtreeRemoveInvL ch]

lemma skelL_subtreeRemoveInvL : ∀ (ch : NodeList), skelL (subtreeRemoveInvL ch) = skelL ch
  | .nil => rfl
  | .cons c cs => by
    show NodeList.cons (skel (subtreeRemoveInv c)) (skelL (subtreeRemoveInvL cs)) =
      NodeList.cons (skel c) (skelL cs)
    rw [skel_subtreeRemoveInv c, skelL_subtreeRemoveInvL cs]

end

lemma skel_clearStrictDesc (n : Node) : skel (clearStrictDesc n) = skel n := by
  cases n with
  | text s => rfl
  | elem nm id hf cls dt ds ch =>
    show Node.elem nm id hf [] none none (skelL (subtreeRemoveInvL ch)) =
      Node.elem nm id hf [] none none (skelL ch)
    rw [skelL_subtreeRemoveInvL ch]

/-! ### Subtree-removal lemmas -/

lemma childAt_subtreeRemoveInvL : ∀ (ch : NodeList) (i : Nat),
    childAt (subtreeRemoveInvL ch) i = (childAt ch i).map subtreeRemoveInv
  | .nil, i => by cases i <;> rfl
  | .cons c cs, 0 => rfl
  | .cons c cs, i + 1 => childAt_subtreeRemoveInvL cs i

lemma getN_subtreeRemoveInv : ∀ (r : Path) (n : Node),
    getN (subtreeRemoveInv n) r = (getN n r).map subtreeRemoveInv
  | [], n => rfl
  | i :: r', n => by
    cases n with
    | text s => rfl
    | elem nm id hf cls dt ds ch =>
      show (match childAt (subtreeRemoveInvL ch) i with
        | some c => getN c r'
        | none => none) =
        (match childAt ch i with
          | some c => getN c r'
          | none => none).map subtreeRemoveInv
      rw [childAt_subtreeRemoveInvL]
      cases childAt ch i with
      | some c =>
        show getN (subtreeRemoveInv c) r' = (getN c r').map subtreeRemoveInv
        exact getN_subtreeRemoveInv r' c
      | none => rfl

lemma classesOf_subtreeRemoveInv (n : Node) :
    classesOf (subtreeRemoveInv n) = (classesOf n).filter fun c => c ≠ invisibleClassName := by
  cases n <;> rfl

lemma contains_filter_ne_inv (l : List String) :
    ((l.filter fun c => c ≠ invisibleClassName).contains invisibleClassName) = false := by
  rw [Bool.eq_false_iff]
  intro hc
  have hmem : invisibleClassName ∈ l.filter fun c => c ≠ invisibleClassName :=
    List.mem_of_elem_eq_true hc
  have := (List.mem_filter.mp hmem).2
  simp at this

/-! ### Effect of each mutation on the hidden-state observable -/

lemma classInv_addInvAt (t : Node) (p q : Path) :
    classInv (addInvAt t p) q = (classInv t q || (q == p && isElemAtB t p)) := by
  by_cases hq : q = p
  · subst hq
    rw [classInv_eq, classInv_eq, isElemAtB_eq]
    unfold addInvAt
    rw [getN_modifyAt_self]
    cases getN t q with
    | none => simp
    | some n =>
      cases n with
      | text s => simp [addInvRoot, classesOf, isElemNode]
      | elem nm id hf cls dt ds ch =>
        by_cases hm : invisibleClassName ∈ cls <;>
          simp [addInvRoot, classesOf, isElemNode, hm]
  · have hqp : (q == p) = false := by simp [hq]
    rw [hqp, Bool.false_and, Bool.or_false]
    by_cases hp : pfx p q = true
    · unfold addInvAt
      rw [classInv_eq, classInv_eq,
        getN_modifyAt_pfx_of_children_eq t p addInvRoot (fun n => by cases n <;> rfl) q hp hq]
    · unfold addInvAt
      rw [classInv_eq, classInv_eq,
        map_getN_modifyAt_not_pfx (fun n => (classesOf n).contains invisibleClassName)
          (fun nm id hf cls dt ds ch ch' => rfl) p q t addInvRoot
          (Bool.eq_false_iff.mpr hp)]

lemma classInv_removeInvAt (t : Node) (p q : Path) :
    classInv (removeInvAt t p) q = (classInv t q && !(q == p)) := by
  by_cases hq : q = p
  · subst hq
    rw [classInv_eq]
    unfold removeInvAt
    rw [getN_modifyAt_self]
    cases getN t q with
    | none => simp
    | some n =>
      cases n with
      | text s => simp [removeInvRoot, classesOf]
      | elem nm id hf cls dt ds ch =>
        simp [removeInvRoot, classesOf, contains_filter_ne_inv]
  · have hqp : (q == p) = false := by simp [hq]
    rw [hqp, Bool.not_false, Bool.and_true]
    by_cases hp : pfx p q = true
    · unfold removeInvAt
      rw [classInv_eq, classInv_eq,
        getN_modifyAt_pfx_of_children_eq t p removeInvRoot (fun n => by cases n <;> rfl) q hp hq]
    · unfold removeInvAt
      rw [classInv_eq, classInv_eq,
        map_getN_modifyAt_not_pfx (fun n => (classesOf n).contains invisibleClassName)
          (fun nm id hf cls dt ds ch ch' => rfl) p q t removeInvRoot
          (Bool.eq_false_iff.mpr hp)]

lemma classInv_revealSubtreeAt (t : Node) (p q : Path) :
    classInv (revealSubtreeAt t p) q = (classInv t q && !(pfx p q)) := by
  by_cases hp : pfx p q = true
  · obtain ⟨r, rfl⟩ := (pfx_iff_exists_append p q).mp hp
    rw [hp, Bool.not_true, Bool.and_false]
    unfold revealSubtreeAt
    rw [classInv_eq, getN_modifyAt_append]
    cases getN t p with
    | none => rfl
    | some n =>
      show ((getN (subtreeRemoveInv n) r).map fun m =>
        (classesOf m).contains invisibleClassName).getD false = false
      rw [getN_subtreeRemoveInv]
      cases getN n r with
      | none => rfl
      | some m =>
        show (classesOf (subtreeRemoveInv m)).contains invisibleClassName = false
        rw [classesOf_subtreeRemoveInv, contains_filter_ne_inv]
  · rw [Bool.eq_false_iff.mpr hp, Bool.not_false, Bool.and_true]
    unfold revealSubtreeAt
    rw [classInv_eq, classInv_eq,
      map_getN_modifyAt_not_pfx (fun n => (classesOf n).contains invisibleClassName)
        (fun nm id hf cls dt ds ch ch' => rfl) p q t subtreeRemoveInv
        (Bool.eq_false_iff.mpr hp)]

lemma classInv_clearStrictDescAt (t : Node) (p q : Path) :
    classInv (modifyAt t p clearStrictDesc) q =
      (classInv t q && !(pfx p q && !(q == p))) := by
  by_cases hq : q = p
  · subst hq
    rw [classInv_eq, classInv_eq, getN_modifyAt_self]
    cases getN t q with
    | none => simp
    | some n =>
      cases n with
      | text s => simp [clearStrictDesc, classesOf]
      | elem nm id hf cls dt ds ch => simp [clearStrictDesc, classesOf]
  · have hqp : (q == p) = false := by simp [hq]
    rw [hqp, Bool.not_false, Bool.and_true]
    by_cases hp : pfx p q = true
    · rw [hp, Bool.not_true, Bool.and_false]
      obtain ⟨r, hr⟩ := (pfx_iff_exists_append p q).mp hp
      subst hr
      cases r with
      | nil => exact absurd (by simp) hq
      | cons i r' =>
        rw [classInv_eq, getN_modifyAt_append]
        cases hg : getN t p with
        | none => rfl
        | some n =>
          show ((getN (clearStrictDesc n) (i :: r')).map fun m =>
            (classesOf m).contains invisibleClassName).getD false = false
          cases n with
          | text s => rfl
          | elem nm id hf cls dt ds ch =>
            show ((match childAt (subtreeRemoveInvL ch) i with
              | some c => getN c r'
              | none => none).map fun m =>
                (classesOf m).contains invisibleClassName).getD false = false
            rw [childAt_subtreeRemoveInvL]
            cases childAt ch i with
            | none => rfl
            | some c =>
              show ((getN (subtreeRemoveInv c) r').map fun m =>
                (classesOf m).contains invisibleClassName).getD false = false
              rw [getN_subtreeRemoveInv]
              cases getN c r' with
              | none => rfl
              | some m =>
                show (classesOf (subtreeRemoveInv m)).contains invisibleClassName = false
                rw [classesOf_subtreeRemoveInv, contains_filter_ne_inv]
    · rw [Bool.eq_false_iff.mpr hp, Bool.not_false, Bool.and_true]
      rw [classInv_eq, classInv_eq,
        map_getN_modifyAt_not_pfx (fun n => (classesOf n).contains invisibleClassName)
          (fun nm id hf cls dt ds ch ch' => rfl) p q t clearStrictDesc
          (Bool.eq_false_iff.mpr hp)]

/-! ### Skeleton stability of structural reads -/

lemma skel_removeInvAt (t : Node) (p : Path) : skel (removeInvAt t p) = skel t :=
  skel_modifyAt p t removeInvRoot skel_removeInvRoot

lemma skel_addInvAt (t : Node) (p : Path) : skel (addInvAt t p) = skel t :=
  skel_modifyAt p t addInvRoot skel_addInvRoot

lemma skel_revealSubtreeAt (t : Node) (p : Path) : skel (revealSubtreeAt t p) = skel t :=
  skel_modifyAt p t subtreeRemoveInv skel_subtreeRemoveInv

lemma map_getN_read_of_skel_eq {α : Type} (R : Node → α) (hR : ∀ n, R (skel n) = R n)
    (t t' : Node) (hsk : skel t' = skel t) (q : Path) :
    (getN t' q).map R = (getN t q).map R := by
  have h1 : getN (skel t') q = getN (skel t) q := by rw [hsk]
  rw [getN_skel, getN_skel] at h1
  have h2 := congrArg (Option.map R) h1
  rw [Option.map_map, Option.map_map] at h2
  have h3 : (R ∘ skel) = R := funext hR
  rw [h3] at h2
  exact h2

lemma firstElemChildAux_skelL : ∀ (ch : NodeList) (i : Nat),
    firstElemChildAux (skelL ch) i =
      (firstElemChildAux ch i).map fun ic => (ic.1, skel ic.2)
  | .nil, i => rfl
  | .cons c cs, i => by
    show (if isElemNode (skel c) then some (i, skel c) else firstElemChildAux (skelL cs) (i + 1)) = _
    rw [isElemNode_skel]
    by_cases hc : isElemNode c = true
    · rw [if_pos hc]
      show _ = (if isElemNode c then some (i, c) else firstElemChildAux cs (i + 1)).map
        fun ic => (ic.1, skel ic.2)
      rw [if_pos hc]
      rfl
    · rw [if_neg hc, firstElemChildAux_skelL cs (i + 1)]
      show _ = (if isElemNode c then some (i, c) else firstElemChildAux cs (i + 1)).map
        fun ic => (ic.1, skel ic.2)
      rw [if_neg hc]

lemma firstElemChild_skel (n : Node) :
    firstElemChild (skel n) = (firstElemChild n).map fun ic => (ic.1, skel ic.2) := by
  unfold firstElemChild
  rw [childrenOf_skel, firstElemChildAux_skelL]

lemma ancFirstChildCover_skel_read (a q : Path) (n : Node) :
    (match firstElemChild (skel n) with
      | some (i, c) => (nameOf c == "A" || isHNames (nameOf c)) && pfx (a ++ [i]) q
      | none => false) =
    (match firstElemChild n with
      | some (i, c) => (nameOf c == "A" || isHNames (nameOf c)) && pfx (a ++ [i]) q
      | none => false) := by
  rw [firstElemChild_skel]
  cases firstElemChild n with
  | none => rfl
  | some ic =>
    obtain ⟨i, c⟩ := ic
    show ((nameOf (skel c) == "A" || isHNames (nameOf (skel c))) && pfx (a ++ [i]) q) =
      ((nameOf c == "A" || isHNames (nameOf c)) && pfx (a ++ [i]) q)
    rw [nameOf_skel]

lemma ancFirstChildCover_skel_stable (t t' : Node) (hsk : skel t' = skel t) (a q : Path) :
    ancFirstChildCover t' a q = ancFirstChildCover t a q := by
  unfold ancFirstChildCover
  have h := map_getN_read_of_skel_eq
    (fun n => match firstElemChild n with
      | some (i, c) => (nameOf c == "A" || isHNames (nameOf c)) && pfx (a ++ [i]) q
      | none => false)
    (fun n => ancFirstChildCover_skel_read a q n) t t' hsk a
  cases hg' : getN t' a with
  | none =>
    rw [hg'] at h
    cases hg : getN t a with
    | none => rfl
    | some m => rw [hg] at h; cases h
  | some n =>
    rw [hg'] at h
    cases hg : getN t a with
    | none => rw [hg] at h; cases h
    | some m =>
      rw [hg] at h
      exact Option.some.inj h

/-! ### Fold characterizations of the reveal phases -/

lemma classInv_foldl_revealSubtreeAt : ∀ (L : List Path) (t : Node) (q : Path),
    classInv (L.foldl revealSubtreeAt t) q = (classInv t q && !(L.any fun s => pfx s q))
  | [], t, q => by simp
  | s :: L', t, q => by
    show classInv (L'.foldl revealSubtreeAt (revealSubtreeAt t s)) q = _
    rw [classInv_foldl_revealSubtreeAt L', classInv_revealSubtreeAt]
    rw [List.any_cons]
    generalize classInv t q = A
    generalize pfx s q = B
    generalize (L'.any fun s => pfx s q) = C
    revert A B C
    decide

lemma firstElemChild_removeInvRoot (n : Node) :
    firstElemChild (removeInvRoot n) = firstElemChild n := by
  cases n <;> rfl

lemma nodeAt_removeInvAt_self (t : Node) (a : Path) :
    getN (removeInvAt t a) a = (getN t a).map removeInvRoot :=
  getN_modifyAt_self a t removeInvRoot

lemma classInv_ancStep (t : Node) (a q : Path) :
    classInv (ancStep t a) q =
      (classInv t q && !(q == a) && !(ancFirstChildCover t a q)) := by
  unfold ancStep ancFirstChildCover
  rw [nodeAt_removeInvAt_self]
  cases hg : getN t a with
  | none =>
    show classInv (removeInvAt t a) q = (classInv t q && !(q == a) && !false)
    rw [classInv_removeInvAt]
    generalize classInv t q = A
    generalize (q == a : Bool) = B
    revert A B
    decide
  | some n =>
    show classInv (match firstElemChild (removeInvRoot n) with
      | some (i, c) =>
        if nameOf c == "A" || isHNames (nameOf c) then
          revealSubtreeAt (removeInvAt t a) (a ++ [i])
        else removeInvAt t a
      | none => removeInvAt t a) q =
      (classInv t q && !(q == a) &&
        !(match firstElemChild n with
          | some (i, c) => (nameOf c == "A" || isHNames (nameOf c)) && pfx (a ++ [i]) q
          | none => false))
    rw [firstElemChild_removeInvRoot]
    cases hfc : firstElemChild n with
    | none =>
      show classInv (removeInvAt t a) q = (classInv t q && !(q == a) && !false)
      rw [classInv_removeInvAt]
      generalize classInv t q = A
      generalize (q == a : Bool) = B
      revert A B
      decide
    | some ic =>
      obtain ⟨i, c⟩ := ic
      show classInv (if nameOf c == "A" || isHNames (nameOf c) then
          revealSubtreeAt (removeInvAt t a) (a ++ [i])
        else removeInvAt t a) q =
        (classInv t q && !(q == a) &&
          !((nameOf c == "A" || isHNames (nameOf c)) && pfx (a ++ [i]) q))
      by_cases hn : (nameOf c == "A" || isHNames (nameOf c)) = true
      · rw [if_pos hn, classInv_revealSubtreeAt, classInv_removeInvAt, hn]
        generalize classInv t q = A
        generalize (q == a : Bool) = B
        generalize pfx (a ++ [i]) q = C
        revert A B C
        decide
      · rw [if_neg hn, classInv_removeInvAt,
          show (nameOf c == "A" || isHNames (nameOf c)) = false from Bool.eq_false_iff.mpr hn]
        generalize classInv t q = A
        generalize (q == a : Bool) = B
        generalize pfx (a ++ [i]) q = C
        revert A B C
        decide

lemma skel_ancStep (t : Node) (a : Path) : skel (ancStep t a) = skel t := by
  unfold ancStep
  rw [nodeAt_removeInvAt_self]
  cases getN t a with
  | none => exact skel_removeInvAt t a
  | some n =>
    show skel (match firstElemChild (removeInvRoot n) with
      | some (i, c) =>
        if nameOf c == "A" || isHNames (nameOf c) then
          revealSubtreeAt (removeInvAt t a) (a ++ [i])
        else removeInvAt t a
      | none => removeInvAt t a) = skel t
    cases firstElemChild (removeInvRoot n) with
    | none => exact skel_removeInvAt t a
    | some ic =>
      obtain ⟨i, c⟩ := ic
      show skel (if nameOf c == "A" || isHNames (nameOf c) then
          revealSubtreeAt (removeInvAt t a) (a ++ [i])
        else removeInvAt t a) = skel t
      by_cases hn : (nameOf c == "A" || isHNames (nameOf c)) = true
      · rw [if_pos hn, skel_revealSubtreeAt, skel_removeInvAt]
      · rw [if_neg hn, skel_removeInvAt]

lemma classInv_foldl_ancStep : ∀ (L : List Path) (t : Node) (q : Path),
    classInv (L.foldl ancStep t) q =
      (classInv t q && !(L.any fun a => q == a) &&
        !(L.any fun a => ancFirstChildCover t a q))
  | [], t, q => by simp
  | a :: L', t, q => by
    show classInv (L'.foldl ancStep (ancStep t a)) q = _
    rw [classInv_foldl_ancStep L', classInv_ancStep]
    have hst : ∀ x, ancFirstChildCover (ancStep t a) x q = ancFirstChildCover t x q :=
      fun x => ancFirstChildCover_skel_stable t (ancStep t a) (skel_ancStep t a) x q
    rw [show (fun x => ancFirstChildCover (ancStep t a) x q) =
        (fun x => ancFirstChildCover t x q) from funext fun x => hst x]
    rw [List.any_cons, List.any_cons]
    generalize classInv t q = A
    generalize (q == a : Bool) = B
    generalize ancFirstChildCover t a q = C
    generalize (L'.any fun x => q == x) = D
    generalize (L'.any fun x => ancFirstChildCover t x q) = E
    revert A B C D E
    decide

lemma classInv_revealAncestorsSparselyAt (t : Node) (p q : Path) :
    classInv (revealAncestorsSparselyAt t p) q =
      (classInv t q &&
        !((properPrefixesLongestFirst p).any fun a => q == a) &&
        !((properPrefixesLongestFirst p).any fun a => ancFirstChildCover t a q)) := by
  unfold revealAncestorsSparselyAt
  exact classInv_foldl_ancStep (properPrefixesLongestFirst p) t q

lemma classInv_foldl_clear : ∀ (L : List Path) (t : Node) (q : Path),
    classInv (L.foldl (fun acc c => modifyAt acc c clearStrictDesc) t) q =
      (classInv t q && !(L.any fun c => pfx c q && !(q == c)))
  | [], t, q => by simp
  | c :: L', t, q => by
    show classInv (L'.foldl (fun acc c => modifyAt acc c clearStrictDesc)
      (modifyAt t c clearStrictDesc)) q = _
    rw [classInv_foldl_clear L', classInv_clearStrictDescAt, List.any_cons]
    generalize classInv t q = A
    generalize pfx c q = B
    generalize (q == c : Bool) = C
    generalize (L'.any fun c => pfx c q && !(q == c)) = D
    revert A B C D
    decide

lemma classInv_fastClear (t : Node) (cr : Path) (q : Path) :
    classInv (fastClear t cr) q =
      (classInv t q && !((containerPaths t cr).any fun c => pfx c q && !(q == c))) := by
  unfold fastClear
  exact classInv_foldl_clear (containerPaths t cr) t q

lemma pfx_take : ∀ (k : Nat) (p : Path), pfx (p.take k) p = true
  | 0, p => rfl
  | k + 1, [] => rfl
  | k + 1, i :: r => by
    show pfx (i :: r.take k) (i :: r) = true
    show (i == i && pfx (r.take k) r) = true
    rw [pfx_take k r]
    simp

lemma mem_properPrefixes (hp q : Path) :
    q ∈ properPrefixesLongestFirst hp ↔ (pfx q hp = true ∧ q ≠ hp) := by
  unfold properPrefixesLongestFirst
  rw [List.mem_map]
  constructor
  · rintro ⟨k, hk, rfl⟩
    rw [List.mem_reverse, List.mem_range] at hk
    refine ⟨pfx_take k hp, fun heq => ?_⟩
    have hlen := congrArg List.length heq
    rw [List.length_take] at hlen
    omega
  · rintro ⟨hpfx, hne⟩
    obtain ⟨r, rfl⟩ := (pfx_iff_exists_append q hp).mp hpfx
    have hr : r ≠ [] := fun h => hne (by simp [h])
    refine ⟨q.length, ?_, ?_⟩
    · rw [List.mem_reverse, List.mem_range, List.length_append]
      have : 0 < r.length := List.length_pos.mpr hr
      omega
    · rw [List.take_left]

lemma any_beq_of_mem (L : List Path) (q : Path) (h : q ∈ L) :
    (L.any fun x => q == x) = true :=
  List.any_eq_true.mpr ⟨q, h, by simp⟩

/-- C4, amended.  With an empty selection and an empty tokenized search,
`revealMatchingContent` returns the `null` sentinel and takes the fast path,
which clears hidden-state exactly below the top-level content containers:
afterwards every strict descendant of a container is visible, and no node
anywhere gains hidden-state. -/
theorem revealMatchingContent_fastPath_amended (t : Node) (cr fl : Path)
    (sel : List String) (searchText : Option String)
    (h1 : sel = []) (h2 : tokenize searchText = []) :
    (revealMatchingContent t cr fl sel searchText).2 = none ∧
    (revealMatchingContent t cr fl sel searchText).1 = fastClear t cr ∧
    (∀ c ∈ containerPaths t cr, ∀ q, pfx c q = true → q ≠ c →
      classInv (fastClear t cr) q = false) ∧
    (∀ q, classInv (fastClear t cr) q = true → classInv t q = true) := by
  subst h1
  have hred : revealMatchingContent t cr fl [] searchText = (fastClear t cr, none) := by
    unfold revealMatchingContent
    rw [h2]
    rfl
  refine ⟨by rw [hred], by rw [hred], fun c hc q hpfx hne => ?_, fun q hq => ?_⟩
  · rw [classInv_fastClear]
    have hany : ((containerPaths t cr).any fun c => pfx c q && !(q == c)) = true :=
      List.any_eq_true.mpr ⟨c, hc, by simp [hpfx, hne]⟩
    rw [hany]
    simp
  · rw [classInv_fastClear, Bool.and_eq_true] at hq
    exact hq.1

/-- Witness for `revealMatchingContent_fastPath_amended` on the collected
one-section document with nothing selected. -/
theorem revealMatchingContent_fastPath_amended_witness :
    (revealMatchingContent docFirstWorkC [] [1] [] (some " ")).2 = none ∧
    (revealMatchingContent docFirstWorkC [] [1] [] (some " ")).1 =
      fastClear docFirstWorkC [] ∧
    (∀ c ∈ containerPaths docFirstWorkC [], ∀ q, pfx c q = true → q ≠ c →
      classInv (fastClear docFirstWorkC []) q = false) ∧
    (∀ q, classInv (fastClear docFirstWorkC []) q = true →
      classInv docFirstWorkC q = true) :=
  revealMatchingContent_fastPath_amended docFirstWorkC [] [1] [] (some " ") rfl (by decide)

/-- C3, amended.  On every *filtered* recompute (non-empty selection or
non-empty tokenized search) the filter-control node and every node on its
ancestor chain end up not hidden, whatever the input state; the fast path
adds no hidden-state anywhere, so no invocation of the engine ever hides the
widget — as stated, the claim fails only in that the fast path does not
actively *clear* a control that was already hidden outside the content
containers before the call. -/
theorem revealMatchingContent_control_amended (t : Node) (cr fl : Path)
    (sel : List String) (searchText : Option String) :
    (¬ (sel = [] ∧ tokenize searchText = []) →
      ∀ a, pfx a fl = true →
        classInv (revealMatchingContent t cr fl sel searchText).1 a = false) ∧
    ((sel = [] ∧ tokenize searchText = []) →
      ∀ q, classInv (revealMatchingContent t cr fl sel searchText).1 q = true →
        classInv t q = true) := by
  constructor
  · intro h a hpfx
    have hb : (sel.isEmpty && (tokenize searchText).isEmpty) = false := by
      rw [Bool.and_eq_false_iff]
      rcases Decidable.em (sel = []) with hs | hs
      · rcases Decidable.em (tokenize searchText = []) with ht | ht
        · exact absurd ⟨hs, ht⟩ h
        · exact Or.inr (by simpa [List.isEmpty_iff] using ht)
      · exact Or.inl (by simpa [List.isEmpty_iff] using hs)
    have hres : (revealMatchingContent t cr fl sel searchText).1 =
        applyVisibility t cr fl (qualifyingHeadings t cr sel (tokenize searchText)) := by
      unfold revealMatchingContent
      rw [if_neg (by simp [hb])]
    rw [hres]
    unfold applyVisibility
    rw [classInv_revealAncestorsSparselyAt]
    by_cases ha : a = fl
    · subst ha
      rw [classInv_revealSubtreeAt, pfx_refl]
      simp
    · have hmem : a ∈ properPrefixesLongestFirst fl :=
        (mem_properPrefixes fl a).mpr ⟨hpfx, ha⟩
      rw [any_beq_of_mem _ a hmem]
      simp
  · rintro ⟨hs, ht⟩ q hq
    subst hs
    have hred : revealMatchingContent t cr fl [] searchText = (fastClear t cr, none) := by
      unfold revealMatchingContent
      rw [ht]
      rfl
    rw [hred] at hq
    rw [classInv_fastClear, Bool.and_eq_true] at hq
    exact hq.1

/-- Witness for `revealMatchingContent_control_amended`: after a filtered
recompute on the collected one-section document, the filter list at `[1]`
and the content root `[]` are both visible. -/
theorem revealMatchingContent_control_amended_witness :
    classInv (revealMatchingContent docFirstWorkC [] [1] ["work"] none).1 [1] = false ∧
    classInv (revealMatchingContent docFirstWorkC [] [1] ["work"] none).1 [] = false :=
  ⟨(revealMatchingContent_control_amended docFirstWorkC [] [1] ["work"] none).1
      (by simp) [1] (by decide),
   (revealMatchingContent_control_amended docFirstWorkC [] [1] ["work"] none).1
      (by simp) [] (by decide)⟩

/-- Character equality transported to code points. -/
lemma char_eq_iff_toNat (c d : Char) : (c = d) ↔ c.toNat = d.toNat := by
  rw [Char.ext_iff, UInt32.ext_iff]; exact Iff.rfl

/-- Character order transported to code points (definitional). -/
lemma char_le_iff_toNat (c d : Char) : (c ≤ d) ↔ c.toNat ≤ d.toNat := Iff.rfl

/-- The regex range `!-(` matches exactly the eight characters `! " # $ % & ' (`. -/
lemma isPunctChar_eq_list (c : Char) : isPunctChar c =
    (c = '_' || c = ',' || c = '.' || c = '?' || c = '!' || c = '"'
      || c = '#' || c = '$' || c = '%' || c = '&' || c = '\''
      || c = '(' || c = ')') := by
  unfold isPunctChar
  rw [Bool.eq_iff_iff]
  simp only [Bool.or_eq_true, Bool.and_eq_true, decide_eq_true_eq, char_eq_iff_toNat,
    char_le_iff_toNat,
    show ('_' : Char).toNat = 95 from rfl, show (',' : Char).toNat = 44 from rfl,
    show ('.' : Char).toNat = 46 from rfl, show ('?' : Char).toNat = 63 from rfl,
    show ('!' : Char).toNat = 33 from rfl, show ('"' : Char).toNat = 34 from rfl,
    show ('#' : Char).toNat = 35 from rfl, show ('$' : Char).toNat = 36 from rfl,
    show ('%' : Char).toNat = 37 from rfl, show ('&' : Char).toNat = 38 from rfl,
    show ('\'' : Char).toNat = 39 from rfl, show ('(' : Char).toNat = 40 from rfl,
    show (')' : Char).toNat = 41 from rfl]
  omega

/-- C5, counterexample.  The claim's punctuation class and its own worked
example both fail on the code: `tokenize` keeps the empty token produced by
the replaced trailing `!` (ECMAScript `split(/\s+/)` keeps a trailing empty
fragment), so `Tokenize("Café, TODO!")` is `["cafe", "todo", ""]`, not the
claimed `["cafe", "todo"]`; and the hyphen is not in the class the regex
`[_,.?!-()]` denotes (there `!-(` is a range), so `"a-b"` stays one token
while the claimed class `_ , . ? ! - ( )` would split it. -/
theorem tokenize_claim_C5_counterexample :
    tokenize (some "Café, TODO!") = ["cafe", "todo", ""] ∧
    tokenize (some "Café, TODO!") ≠ ["cafe", "todo"] ∧
    tokenizeSpecC5 "Café, TODO!" = ["cafe", "todo"] ∧
    tokenize (some "a-b") = ["a-b"] ∧
    tokenizeSpecC5 "a-b" = ["a", "b"] ∧
    tokenize (some "a-b") ≠ tokenizeSpecC5 "a-b" := by
  refine ⟨by decide, by decide, by decide, by decide, by decide, by decide⟩

/-- C5, amended.  `tokenize` trims its input and returns the empty sequence
for empty or whitespace-only (or absent) input; otherwise it NFKD-decomposes,
strips combining diacritical marks U+0300–U+036F, replaces each character of
the class `_ , . ?`, `!` through `(` (that is `! " # $ % & ' (`) and `)` by a
space — the hyphen is *not* replaced — splits on runs of whitespace keeping
boundary empty tokens, and lower-cases every token.  It is a pure function;
`Tokenize("") = []` and `Tokenize("Café, TODO!") = ["cafe", "todo", ""]`. -/
theorem tokenize_eq_spec_amended (s : String) :
    tokenize (some s) = tokenizeSpecC5Amended s ∧
    tokenize (some "") = [] ∧
    tokenize (some "Café, TODO!") = ["cafe", "todo", ""] := by
  refine ⟨?_, by decide, by decide⟩
  unfold tokenize tokenizeSpecC5Amended
  simp only [isPunctChar_eq_list]

/-- Witness for `tokenize_eq_spec_amended` at a concrete input. -/
theorem tokenize_eq_spec_amended_witness :
    tokenize (some "Fix bugs_ (now)!") = tokenizeSpecC5Amended "Fix bugs_ (now)!" :=
  (tokenize_eq_spec_amended "Fix bugs_ (now)!").1

/-- C1, counterexample.  In `docEmptyHeadingC` — a collected document whose
only heading has empty text, so its cached search text is the collector-
written empty string — the search `"."` tokenizes to the non-empty `["", ""]`
and the claim's condition (b) holds vacuously (the empty string contains the
empty token), so the claim says the heading qualifies; but `headingMatches`
rejects any heading whose cached text is falsy (absent *or empty*), so the
code marks nothing as qualifying. -/
theorem revealMatchingContent_claimC1_counterexample :
    tokenize (some ".") = ["", ""] ∧
    cachedSearchText docEmptyHeadingC [0] = "" ∧
    [0] ∈ getAllHeadingElements docEmptyHeadingC [] ∧
    claimQualC1 docEmptyHeadingC [] (tokenize (some ".")) [0] ∧
    qualifyingHeadings docEmptyHeadingC [] [] (tokenize (some ".")) = [] ∧
    (revealMatchingContent docEmptyHeadingC [] [1] [] (some ".")).2 = some [] := by
  refine ⟨by decide, by decide, by decide, by decide, by decide, by decide⟩

/-- C2, counterexample.  In the collected two-level table of contents
`docTocTwoLevelC`, the parent entry `[0,0,0]` resolves to `{work}` while its
strict-descendant heading `[0,0,0,1,0]`, which carries no markers of its own,
gets no attached tag set and resolves to the empty set — so a descendant's
resolved tag set is *not* always a superset of its strict ancestor heading's. -/
theorem collectTags_claimC2_counterexample :
    [0, 0, 0] ∈ getAllHeadingElements docTocTwoLevelC [] ∧
    [0, 0, 0, 1, 0] ∈ getAllHeadingElements docTocTwoLevelC [] ∧
    pfx [0, 0, 0] [0, 0, 0, 1, 0] = true ∧
    headingTagsAt docTocTwoLevelC [0, 0, 0] = ["work"] ∧
    headingTagsAt docTocTwoLevelC [0, 0, 0, 1, 0] = [] ∧
    ¬ ("work" ∈ headingTagsAt docTocTwoLevelC [0, 0, 0] →
        "work" ∈ headingTagsAt docTocTwoLevelC [0, 0, 0, 1, 0]) := by
  decide

/-- C3, counterexample.  On the fast path (empty selection, empty search) the
engine only removes hidden-state below the top-level content containers; a
filter-control element that starts out hidden and sits outside every
container is still marked hidden after the invocation, so "the filter-control
node carries visible state after every recompute" does not hold as stated. -/
theorem revealMatchingContent_claimC3_counterexample :
    idOf (match getN docHiddenControl [0] with | some n => n | none => .text "") =
      "oxtf-filter-list" ∧
    (revealMatchingContent docHiddenControl [] [0] [] none).2 = none ∧
    classInv (revealMatchingContent docHiddenControl [] [0] [] none).1 [0] = true := by
  decide

/-- C4, counterexample.  The fast path clears hidden-state only below the
top-level content containers (`div#text-table-of-contents`, `div.outline-2`);
a hidden node outside every container — here a pre-hidden paragraph directly
under the content root — stays hidden, so "every node in the tree is visible"
does not hold as stated (the `null` return does). -/
theorem revealMatchingContent_claimC4_counterexample :
    (revealMatchingContent docHiddenPara [] [0] [] none).2 = none ∧
    classInv (revealMatchingContent docHiddenPara [] [0] [] none).1 [0] = true := by
  decide

/-- C9, counterexample.  In `docIntroChildC` the child heading's cached
searchTokens are `Tokenize("Intro. Child") = ["intro", "child"]`, but the
ancestor's own token sequence is `Tokenize("Intro.") = ["intro", ""]` (the
replaced trailing `.` leaves a trailing empty token), which is *not* a prefix
of the cached sequence: tokenization does not distribute over the space-joined
concatenation of heading texts. -/
theorem collectHeadingKeywords_claimC9_counterexample :
    [0, 1, 0] ∈ getAllHeadingElements docIntroChildC [] ∧
    headingTextContent (match getN docIntroChild [0, 0] with
      | some n => n | none => .text "") = "Intro." ∧
    headingTextContent (match getN docIntroChild [0, 1, 0] with
      | some n => n | none => .text "") = "Child" ∧
    cachedSearchText docIntroChildC [0, 1, 0] = joinSp ["intro", "child"] ∧
    tokenize (some "Intro.") = ["intro", ""] ∧
    tokenize (some "Child") = ["child"] ∧
    (tokenize (some "Intro.")).isPrefixOf ["intro", "child"] = false := by
  decide

/-- C7.  When a recompute returns a non-null empty reachable-tag set while
the trimmed search text is empty, `updateFiltering` clears the tag selection,
recomputes on the resulting tree with the empty selection and the searchText
argument omitted — which takes the fast path and returns the `null`
sentinel — and persists the cleared selection. -/
theorem updateFiltering_selfCorrection (t : Node) (cr fl : Path)
    (sel : List String) (searchText : String)
    (h1 : (revealMatchingContent t cr fl sel (some searchText)).2 = some [])
    (h2 : jsTrim searchText = "") :
    (updateFiltering t cr fl sel searchText).selection = [] ∧
    (updateFiltering t cr fl sel searchText).saved = [] ∧
    (updateFiltering t cr fl sel searchText).wasReset = true ∧
    (updateFiltering t cr fl sel searchText).lastResult = none ∧
    (updateFiltering t cr fl sel searchText).tree =
      fastClear (revealMatchingContent t cr fl sel (some searchText)).1 cr := by
  have hcond : (List.isEmpty ([] : List String)
      && ((jsTrim searchText).data.length == 0)) = true := by
    rw [h2]; decide
  unfold updateFiltering
  simp only [h1]
  rw [if_pos hcond]
  exact ⟨rfl, rfl, rfl, rfl, rfl⟩

/-- Witness for `updateFiltering_selfCorrection`: on the collected
`docFirstWorkC` (one heading, tag `work`), the stale selection `{zzz}`
matches nothing, so the run resets and persists the empty selection. -/
theorem updateFiltering_selfCorrection_witness :
    (updateFiltering docFirstWorkC [] [1] ["zzz"] "").selection = [] ∧
    (updateFiltering docFirstWorkC [] [1] ["zzz"] "").saved = [] ∧
    (updateFiltering docFirstWorkC [] [1] ["zzz"] "").wasReset = true ∧
    (updateFiltering docFirstWorkC [] [1] ["zzz"] "").lastResult = none ∧
    (updateFiltering docFirstWorkC [] [1] ["zzz"] "").tree =
      fastClear (revealMatchingContent docFirstWorkC [] [1] ["zzz"] (some "")).1 [] :=
  updateFiltering_selfCorrection docFirstWorkC [] [1] ["zzz"] "" (by decide) (by decide)

/-- C8, counterexample.  `loadSelectedTags` feeds the stored value straight
to `JSON.parse` with no try/catch: unparseable persisted data (here the
stored string `garbage`) raises instead of being recovered, so "load never
raises an error" does not hold as stated. -/
theorem loadSelectedTags_claimC8_counterexample :
    loadSelectedTags (some [("OXTF_/", "garbage")]) "OXTF_/" =
      .error "unexpected token" := rfl

/-- Reading the cached tag set through a known node. -/
lemma headingTagsAt_some (t : Node) (p : Path) (n : Node) (hn : getN t p = some n) :
    headingTagsAt t p = headingTags n := by
  unfold headingTagsAt; rw [hn]

/-- Reading the cached search text through a known node. -/
lemma cachedSearchText_some (t : Node) (p : Path) (n : Node) (hn : getN t p = some n) :
    cachedSearchText t p = (dsSearchOf n).getD "" := by
  unfold cachedSearchText; rw [hn]

/-- Unfolding the qualification test through a known node. -/
lemma headingQualifies_some (t : Node) (sel toks : List String) (p : Path) (n : Node)
    (hn : getN t p = some n) :
    headingQualifies t sel toks p =
      ((sel.all fun tag => (headingTags n).contains tag) &&
        (toks.isEmpty || headingMatches n toks)) := by
  unfold headingQualifies; rw [hn]

/-- `headingMatches` in claim-side terms: the cached text (empty when absent)
must be non-empty and contain every word. -/
lemma headingMatches_iff (n : Node) (toks : List String) :
    headingMatches n toks = true ↔
      ((dsSearchOf n).getD "" ≠ "" ∧
        ∀ w ∈ toks, jsIncludes ((dsSearchOf n).getD "") w = true) := by
  unfold headingMatches
  cases hds : dsSearchOf n with
  | none => simp
  | some s =>
    by_cases hs : s = ""
    · subst hs; simp
    · simp [hs, List.all_eq_true]

/-- Bridging lemma for C1: on a path that holds a node, the source's
qualification test is equivalent to the amended claim-side condition. -/
lemma headingQualifies_iff_claimAmended (t : Node) (sel toks : List String)
    (p : Path) (n : Node) (hn : getN t p = some n) :
    headingQualifies t sel toks p = true ↔ claimQualC1Amended t sel toks p := by
  rw [headingQualifies_some t sel toks p n hn]
  unfold claimQualC1Amended
  rw [headingTagsAt_some t p n hn, cachedSearchText_some t p n hn]
  simp only [Bool.and_eq_true, Bool.or_eq_true, List.all_eq_true, List.isEmpty_iff,
    headingMatches_iff]
  constructor
  · rintro ⟨hall, hor⟩
    refine ⟨fun tag htag => by simpa using hall tag htag, fun hne => ?_⟩
    rcases hor with h0 | hm
    · exact absurd h0 hne
    · exact hm
  · rintro ⟨hall, himp⟩
    refine ⟨fun tag htag => by simpa using hall tag htag, ?_⟩
    by_cases h0 : toks = []
    · exact Or.inl h0
    · exact Or.inr (himp h0)

/-- C1, amended.  For every collected document, selection and search string
with the selection non-empty or the tokenized search non-empty, the engine
marks a heading as qualifying iff (a) its cached effective tag set is a
superset of the selected tags and (b) when the tokenized search is non-empty,
its cached searchTokens joined text is *non-empty* and contains every search
token as a substring; the returned set is exactly the union of the
`effectiveTags` of the qualifying headings. -/
theorem revealMatchingContent_qualification_amended (t : Node) (cr fl : Path)
    (sel : List String) (searchText : Option String)
    (h : ¬ (sel = [] ∧ tokenize searchText = [])) :
    (revealMatchingContent t cr fl sel searchText).2 =
      some ((qualifyingHeadings t cr sel (tokenize searchText)).flatMap
        (headingTagsAt t)) ∧
    (∀ p, p ∈ qualifyingHeadings t cr sel (tokenize searchText) ↔
      p ∈ getAllHeadingElements t cr ∧
        claimQualC1Amended t sel (tokenize searchText) p) ∧
    (∀ tag, tag ∈ ((revealMatchingContent t cr fl sel searchText).2.getD []) ↔
      ∃ p ∈ qualifyingHeadings t cr sel (tokenize searchText),
        tag ∈ headingTagsAt t p) := by
  have hb : (sel.isEmpty && (tokenize searchText).isEmpty) = false := by
    rw [Bool.and_eq_false_iff]
    rcases Decidable.em (sel = []) with hs | hs
    · rcases Decidable.em (tokenize searchText = []) with ht | ht
      · exact absurd ⟨hs, ht⟩ h
      · exact Or.inr (by simpa [List.isEmpty_iff] using ht)
    · exact Or.inl (by simpa [List.isEmpty_iff] using hs)
  have hres : revealMatchingContent t cr fl sel searchText =
      (applyVisibility t cr fl (qualifyingHeadings t cr sel (tokenize searchText)),
       some ((qualifyingHeadings t cr sel (tokenize searchText)).flatMap
         (headingTagsAt t))) := by
    unfold revealMatchingContent
    rw [if_neg (by simp [hb])]
  refine ⟨by rw [hres], fun p => ?_, fun tag => ?_⟩
  · unfold qualifyingHeadings
    rw [List.mem_filter]
    constructor
    · rintro ⟨hmem, hq⟩
      have hv : ∃ n, getN t p = some n := by
        unfold getAllHeadingElements at hmem
        have := (List.mem_filter.mp hmem).2
        unfold isCollectedHeadingAtB at this
        revert this
        cases hg : getN t p with
        | some n => exact fun _ => ⟨n, rfl⟩
        | none => intro hfalse; cases hfalse
      rcases hv with ⟨n, hn⟩
      exact ⟨hmem, (headingQualifies_iff_claimAmended t sel _ p n hn).mp hq⟩
    · rintro ⟨hmem, hc⟩
      have hv : ∃ n, getN t p = some n := by
        unfold getAllHeadingElements at hmem
        have := (List.mem_filter.mp hmem).2
        unfold isCollectedHeadingAtB at this
        revert this
        cases hg : getN t p with
        | some n => exact fun _ => ⟨n, rfl⟩
        | none => intro hfalse; cases hfalse
      rcases hv with ⟨n, hn⟩
      exact ⟨hmem, (headingQualifies_iff_claimAmended t sel _ p n hn).mpr hc⟩
  · rw [hres]
    simp

/-- Witness for `revealMatchingContent_qualification_amended` on the
collected one-section document with the tag `work` selected. -/
theorem revealMatchingContent_qualification_amended_witness :
    (revealMatchingContent docFirstWorkC [] [1] ["work"] none).2 =
      some ((qualifyingHeadings docFirstWorkC [] ["work"] (tokenize none)).flatMap
        (headingTagsAt docFirstWorkC)) ∧
    (∀ p, p ∈ qualifyingHeadings docFirstWorkC [] ["work"] (tokenize none) ↔
      p ∈ getAllHeadingElements docFirstWorkC [] ∧
        claimQualC1Amended docFirstWorkC ["work"] (tokenize none) p) ∧
    (∀ tag, tag ∈ ((revealMatchingContent docFirstWorkC [] [1] ["work"] none).2.getD []) ↔
      ∃ p ∈ qualifyingHeadings docFirstWorkC [] ["work"] (tokenize none),
        tag ∈ headingTagsAt docFirstWorkC p) :=
  revealMatchingContent_qualification_amended docFirstWorkC [] [1] ["work"] none
    (by simp)

/-- A string is its character list repackaged. -/
lemma string_mk_data (s : String) : String.mk s.data = s := by
  cases s; rfl

/-- Scanning a clean (escape-free) string body up to its closing quote. -/
lemma jsonStr_clean_list (l : List Char) (hl : l.all (fun c => c ≠ '"' && c ≠ '\\') = true)
    (rest cur : List Char) (acc : List String) :
    jsonStr (l ++ '"' :: rest) cur acc =
      jsonAfter rest (acc ++ [String.mk (cur.reverse ++ l)]) := by
  induction l generalizing cur with
  | nil =>
    show jsonStr ('"' :: rest) cur acc = _
    rw [jsonStr.eq_def]
    simp only []
    rw [if_pos trivial]
    simp
  | cons c cs ih =>
    rw [List.all_cons, Bool.and_eq_true] at hl
    have hc : (c ≠ '"' && c ≠ '\\') = true := hl.1
    rw [Bool.and_eq_true, decide_eq_true_eq, decide_eq_true_eq] at hc
    show jsonStr (c :: (cs ++ '"' :: rest)) cur acc = _
    rw [jsonStr.eq_def]
    simp only []
    rw [if_neg hc.1, if_neg hc.2, ih hl.2]
    simp

/-- Parsing the stringified body of a non-empty clean string list. -/
lemma jsonElems_body (l : List String) (hl : ∀ s ∈ l, jsonCleanString s = true)
    (hne : l ≠ []) (acc : List String) :
    jsonElems (jsonBody l ++ [']']) acc = some (acc ++ l) := by
  induction l generalizing acc with
  | nil => exact absurd rfl hne
  | cons s rest ih =>
    have hs : s.data.all (fun c => c ≠ '"' && c ≠ '\\') = true := hl s (by simp)
    cases rest with
    | nil =>
      show jsonElems ((jsonQuote s) ++ [']']) acc = _
      unfold jsonQuote
      show jsonElems ('"' :: (s.data ++ ['"']) ++ [']']) acc = _
      rw [List.cons_append, jsonElems.eq_def]
      simp only []
      rw [if_pos trivial]
      have hsplit : (s.data ++ ['"']) ++ [']'] = s.data ++ '"' :: [']'] := by simp
      rw [hsplit, jsonStr_clean_list s.data hs [']'] [] acc]
      rw [jsonAfter.eq_def]
      simp only [List.reverse_nil, List.nil_append, string_mk_data]
      rw [if_pos trivial, if_neg (by decide)]
    | cons s2 rest2 =>
      show jsonElems ((jsonQuote s ++ ',' :: jsonBody (s2 :: rest2)) ++ [']']) acc = _
      unfold jsonQuote
      show jsonElems (('"' :: (s.data ++ ['"']) ++ ',' :: jsonBody (s2 :: rest2)) ++ [']']) acc = _
      rw [List.cons_append, List.cons_append, jsonElems.eq_def]
      simp only []
      rw [if_pos trivial]
      have hsplit : ((s.data ++ ['"']) ++ ',' :: jsonBody (s2 :: rest2)) ++ [']'] =
          s.data ++ '"' :: (',' :: (jsonBody (s2 :: rest2) ++ [']'])) := by simp
      rw [hsplit, jsonStr_clean_list s.data hs _ [] acc]
      rw [jsonAfter.eq_def]
      simp only [List.reverse_nil, List.nil_append, string_mk_data]
      rw [if_pos trivial]
      rw [ih (fun x hx => hl x (by simp [hx])) (by simp) (acc ++ [s])]
      simp

/-- C8, amended.  The Selection Store load returns `[]` when the store is
unavailable or the key absent (or its value the empty string); a value
written by `saveSelectedTags` — `JSON.stringify` of the selection — parses
back to exactly that selection; persisted tags absent from the current
document are filtered out silently by the caller's restore step, which only
ever yields tags of the document.  Unparseable persisted data, however, is
*not* recovered: the parse error propagates out of `load` (there is no
try/catch), aborting initialization. -/
theorem loadSelectedTags_amended :
    (∀ key, loadSelectedTags none key = .ok []) ∧
    (∀ store key, (store.find? fun kv => kv.1 == key) = none →
      loadSelectedTags (some store) key = .ok []) ∧
    (∀ key, loadSelectedTags (some [(key, "")]) key = .ok []) ∧
    (∀ key sel, (∀ s ∈ sel, jsonCleanString s = true) →
      loadSelectedTags (some [(key, jsonStringifyStringArray sel)]) key = .ok sel) ∧
    (∀ db key docTags tags, initRestoredSelection db key docTags = .ok tags →
      ∀ tg ∈ tags, tg ∈ docTags) := by
  refine ⟨fun key => rfl, fun store key hf => ?_, fun key => ?_,
    fun key sel hsel => ?_, fun db key docTags tags hres tg htg => ?_⟩
  · show (match ((store.find? fun kv => kv.1 == key)).map Prod.snd with
      | none => Except.ok []
      | some v => if v = "" then Except.ok [] else jsonParseStringArray v) = Except.ok []
    rw [hf]
    rfl
  · show (match (([((key : String), ("" : String))].find? fun kv => kv.1 == key)).map
        Prod.snd with
      | none => Except.ok []
      | some v => if v = "" then Except.ok [] else jsonParseStringArray v) = Except.ok []
    rw [show (([((key : String), ("" : String))].find? fun kv => kv.1 == key)).map
        Prod.snd = some "" by simp]
    rfl
  · show (match (([(key, jsonStringifyStringArray sel)].find? fun kv => kv.1 == key)).map
        Prod.snd with
      | none => Except.ok []
      | some v => if v = "" then Except.ok [] else jsonParseStringArray v) = Except.ok sel
    rw [show (([(key, jsonStringifyStringArray sel)].find? fun kv => kv.1 == key)).map
        Prod.snd = some (jsonStringifyStringArray sel) by simp]
    show (if jsonStringifyStringArray sel = "" then Except.ok []
      else jsonParseStringArray (jsonStringifyStringArray sel)) = Except.ok sel
    rw [if_neg (by
      intro hemp
      have := congrArg String.data hemp
      simp [jsonStringifyStringArray] at this)]
    cases sel with
    | nil => rfl
    | cons s rest =>
      obtain ⟨tl, htl⟩ : ∃ tl, jsonBody (s :: rest) = '"' :: tl := by
        unfold jsonBody jsonQuote
        cases rest <;> simp
      have hb : jsonElems (jsonBody (s :: rest) ++ [']']) [] = some (s :: rest) := by
        simpa using jsonElems_body (s :: rest) hsel (by simp) []
      rw [htl] at hb
      unfold jsonStringifyStringArray jsonParseStringArray
      rw [htl]
      simp only [List.cons_append]
      change (match jsonElems ('"' :: (tl ++ [']'])) [] with
        | some l => Except.ok l
        | none => Except.error "unexpected token") = Except.ok (s :: rest)
      rw [show jsonElems ('"' :: (tl ++ [']'])) [] = some (s :: rest) by
        rw [← hb]; simp]
  · unfold initRestoredSelection at hres
    revert hres
    cases hload : loadSelectedTags db key with
    | ok tags0 =>
      intro hres
      have heq : tags = tags0.filter fun tg => docTags.contains tg := by
        cases hres; rfl
      subst heq
      have h2 := (List.mem_filter.mp htg).2
      simpa using h2
    | error e => intro hres; cases hres

/-- Witness for `loadSelectedTags_amended`: a persisted selection written by
`saveSelectedTags` loads back unchanged. -/
theorem loadSelectedTags_amended_witness :
    loadSelectedTags (some [("OXTF_/notes", jsonStringifyStringArray ["home", "work"])])
      "OXTF_/notes" = .ok ["home", "work"] :=
  loadSelectedTags_amended.2.2.2.1 "OXTF_/notes" ["home", "work"] (by decide)

/-- C10.  `tokenize` is total over absent input: the JavaScript `undefined`
argument (modelled as `none`) yields the empty token sequence, exactly as the
empty string does; consequently `revealMatchingContent` invoked with the
searchText argument omitted — as the caller's self-correction recompute does —
behaves exactly like an empty search string on every tree. -/
theorem tokenize_total_on_absent :
    tokenize none = [] ∧ tokenize none = tokenize (some "") ∧
    ∀ (t : Node) (cr fl : Path) (sel : List String),
      revealMatchingContent t cr fl sel none =
        revealMatchingContent t cr fl sel (some "") := by
  refine ⟨rfl, by decide, fun t cr fl sel => ?_⟩
  unfold revealMatchingContent
  rw [show tokenize (some "") = tokenize none from by decide]

/-! ### The C6 reveal-set characterization -/

lemma skel_foldl_revealSubtreeAt : ∀ (L : List Path) (t : Node),
    skel (L.foldl revealSubtreeAt t) = skel t
  | [], _ => rfl
  | p :: L', t => by
    show skel (L'.foldl revealSubtreeAt (revealSubtreeAt t p)) = skel t
    rw [skel_foldl_revealSubtreeAt L', skel_revealSubtreeAt]

lemma isHNamesAtB_skel_stable (t t' : Node) (hsk : skel t' = skel t) (p : Path) :
    isHNamesAtB t' p = isHNamesAtB t p := by
  unfold isHNamesAtB
  rw [map_getN_read_of_skel_eq (fun n => isHNames (nameOf n))
    (fun n => by
      show isHNames (nameOf (skel n)) = isHNames (nameOf n)
      rw [nameOf_skel]) t t' hsk p]

lemma elemIndicesAux_skelL : ∀ (ch : NodeList) (i : Nat),
    elemIndicesAux (skelL ch) i = elemIndicesAux ch i
  | .nil, _ => rfl
  | .cons c cs, i => by
    show (if isElemNode (skel c) then [i] else []) ++ elemIndicesAux (skelL cs) (i + 1) = _
    rw [isElemNode_skel, elemIndicesAux_skelL cs (i + 1)]
    rfl

lemma followingSiblingElemPaths_skel_stable (t t' : Node) (hsk : skel t' = skel t) (p : Path) :
    followingSiblingElemPaths t' p = followingSiblingElemPaths t p := by
  unfold followingSiblingElemPaths
  cases splitLast p with
  | none => rfl
  | some qi =>
    obtain ⟨q, i⟩ := qi
    show (match getN t' q with
      | some parent =>
        ((elemIndicesAux (childrenOf parent) 0).filter fun j => i < j).map fun j => q ++ [j]
      | none => []) =
      (match getN t q with
      | some parent =>
        ((elemIndicesAux (childrenOf parent) 0).filter fun j => i < j).map fun j => q ++ [j]
      | none => [])
    have h := map_getN_read_of_skel_eq (fun n => elemIndicesAux (childrenOf n) 0)
      (fun n => by
        show elemIndicesAux (childrenOf (skel n)) 0 = elemIndicesAux (childrenOf n) 0
        rw [childrenOf_skel, elemIndicesAux_skelL]) t t' hsk q
    cases hg' : getN t' q with
    | none =>
      rw [hg'] at h
      cases hg : getN t q with
      | none => rfl
      | some m => rw [hg] at h; simp at h
    | some n =>
      rw [hg'] at h
      cases hg : getN t q with
      | none => rw [hg] at h; simp at h
      | some m =>
        rw [hg] at h
        have hnm : elemIndicesAux (childrenOf n) 0 = elemIndicesAux (childrenOf m) 0 :=
          Option.some.inj h
        show ((elemIndicesAux (childrenOf n) 0).filter fun j => i < j).map (fun j => q ++ [j]) =
          ((elemIndicesAux (childrenOf m) 0).filter fun j => i < j).map (fun j => q ++ [j])
        rw [hnm]

lemma any_beq_properPrefixes (hp q : Path) :
    ((properPrefixesLongestFirst hp).any fun a => q == a) = (pfx q hp && !(q == hp)) := by
  by_cases h : q ∈ properPrefixesLongestFirst hp
  · rw [any_beq_of_mem _ _ h]
    obtain ⟨h1, h2⟩ := (mem_properPrefixes hp q).mp h
    have he : (q == hp) = false := by
      cases hqe : q == hp
      · rfl
      · exact absurd (eq_of_beq hqe) h2
    rw [h1, he]
    rfl
  · have hfalse : ((properPrefixesLongestFirst hp).any fun a => q == a) = false := by
      cases hany : (properPrefixesLongestFirst hp).any fun a => q == a
      · rfl
      · obtain ⟨x, hx, hbeq⟩ := List.any_eq_true.mp hany
        rw [eq_of_beq hbeq] at h
        exact absurd hx h
    rw [hfalse]
    rw [mem_properPrefixes] at h
    push_neg at h
    by_cases hpf : pfx q hp = true
    · have hqhp : q = hp := h hpf
      subst hqhp
      simp
    · rw [Bool.eq_false_iff.mpr hpf]
      rfl

/-- C6.  One qualifying heading's reveal step (`revealForHeading`) turns off
hidden-state on exactly the claim's described node set — the heading's own
subtree, the following sibling subtrees when the heading is a heading-level
element, the ancestor-chain nodes themselves, and the first-child subtree of
each ancestor whose first element child is an anchor or heading marker — and
turns hidden-state on nowhere: for every node path `q`, `q` carries
hidden-state afterwards iff it carried it before and is outside that set.
In particular an ancestor's other branches are never revealed. -/
theorem revealForHeading_claimC6 (t : Node) (hp q : Path) :
    classInv (revealForHeading t hp) q = (classInv t q && !(claimRevealSetC6 t hp q)) := by
  unfold revealForHeading claimRevealSetC6
  show classInv (revealAncestorsSparselyAt
      (if isHNamesAtB (revealSubtreeAt t hp) hp then
        (followingSiblingElemPaths (revealSubtreeAt t hp) hp).foldl revealSubtreeAt
          (revealSubtreeAt t hp)
      else revealSubtreeAt t hp) hp) q = _
  rw [isHNamesAtB_skel_stable t (revealSubtreeAt t hp) (skel_revealSubtreeAt t hp) hp,
    followingSiblingElemPaths_skel_stable t (revealSubtreeAt t hp) (skel_revealSubtreeAt t hp) hp]
  cases hH : isHNamesAtB t hp with
  | false =>
    rw [if_neg Bool.false_ne_true]
    rw [classInv_revealAncestorsSparselyAt,
      show (fun a => ancFirstChildCover (revealSubtreeAt t hp) a q) =
          (fun a => ancFirstChildCover t a q) from
        funext fun a => ancFirstChildCover_skel_stable t _ (skel_revealSubtreeAt t hp) a q,
      classInv_revealSubtreeAt, any_beq_properPrefixes]
    generalize classInv t q = A
    generalize pfx hp q = B
    generalize ((followingSiblingElemPaths t hp).any fun s => pfx s q) = C
    generalize pfx q hp = D
    generalize (q == hp) = E
    generalize ((properPrefixesLongestFirst hp).any fun a => ancFirstChildCover t a q) = F
    revert A B C D E F
    decide
  | true =>
    rw [if_pos rfl]
    rw [classInv_revealAncestorsSparselyAt,
      show (fun a => ancFirstChildCover
            ((followingSiblingElemPaths t hp).foldl revealSubtreeAt (revealSubtreeAt t hp)) a q) =
          (fun a => ancFirstChildCover t a q) from
        funext fun a => ancFirstChildCover_skel_stable t _
          (by rw [skel_foldl_revealSubtreeAt, skel_revealSubtreeAt]) a q,
      classInv_foldl_revealSubtreeAt, classInv_revealSubtreeAt, any_beq_properPrefixes]
    generalize classInv t q = A
    generalize pfx hp q = B
    generalize ((followingSiblingElemPaths t hp).any fun s => pfx s q) = C
    generalize pfx q hp = D
    generalize (q == hp) = E
    generalize ((properPrefixesLongestFirst hp).any fun a => ancFirstChildCover t a q) = F
    revert A B C D E F
    decide

/-! ### Core lemmas: the metadata collectors touch only datasets -/

lemma childAt_coreL : ∀ (ch : NodeList) (i : Nat),
    childAt (coreL ch) i = (childAt ch i).map core
  | .nil, i => by cases i <;> rfl
  | .cons c cs, 0 => rfl
  | .cons c cs, i + 1 => childAt_coreL cs i

lemma childrenOf_core (n : Node) : childrenOf (core n) = coreL (childrenOf n) := by
  cases n <;> rfl

lemma nameOf_core (n : Node) : nameOf (core n) = nameOf n := by cases n <;> rfl

lemma idOf_core (n : Node) : idOf (core n) = idOf n := by cases n <;> rfl

lemma hrefOf_core (n : Node) : hrefOf (core n) = hrefOf n := by cases n <;> rfl

lemma classesOf_core (n : Node) : classesOf (core n) = classesOf n := by cases n <;> rfl

lemma isElemNode_core (n : Node) : isElemNode (core n) = isElemNode n := by cases n <;> rfl

lemma getN_core : ∀ (p : Path) (t : Node), getN (core t) p = (getN t p).map core
  | [], t => rfl
  | i :: r, t => by
    show (match childAt (childrenOf (core t)) i with
      | some c => getN c r
      | none => none) =
      (match childAt (childrenOf t) i with
        | some c => getN c r
        | none => none).map core
    rw [childrenOf_core, childAt_coreL]
    cases childAt (childrenOf t) i with
    | some c =>
      show getN (core c) r = (getN c r).map core
      exact getN_core r c
    | none => rfl

lemma coreL_setChild : ∀ (ch : NodeList) (i : Nat) (m : Node),
    coreL (setChild ch i m) = setChild (coreL ch) i (core m)
  | .nil, i, m => by cases i <;> rfl
  | .cons c cs, 0, m => rfl
  | .cons c cs, i + 1, m => by
    show NodeList.cons (core c) (coreL (setChild cs i m)) = _
    rw [coreL_setChild cs i m]
    rfl

lemma core_modifyAt : ∀ (p : Path) (t : Node) (f : Node → Node),
    (∀ n, core (f n) = core n) → core (modifyAt t p f) = core t
  | [], t, f, hfs => hfs t
  | i :: r, t, f, hfs => by
    cases t with
    | text s => rfl
    | elem nm id hf cls dt ds ch =>
      show core (match childAt ch i with
        | some c => Node.elem nm id hf cls dt ds (setChild ch i (modifyAt c r f))
        | none => Node.elem nm id hf cls dt ds ch) = _
      cases hc : childAt ch i with
      | none => rfl
      | some c =>
        show Node.elem nm id hf cls none none (coreL (setChild ch i (modifyAt c r f))) = _
        rw [coreL_setChild, core_modifyAt r c f hfs]
        rw [setChild_of_childAt_eq (coreL ch) i (core c)
          (by rw [childAt_coreL, hc]; rfl)]
        rfl

lemma core_setDsTags (v : List String) (n : Node) : core (setDsTags v n) = core n := by
  cases n <;> rfl

lemma core_setDsSearch (v : String) (n : Node) : core (setDsSearch v n) = core n := by
  cases n <;> rfl

lemma map_getN_read_of_core_eq {α : Type} (R : Node → α) (hR : ∀ n, R (core n) = R n)
    (t t' : Node) (hc : core t' = core t) (q : Path) :
    (getN t' q).map R = (getN t q).map R := by
  have h1 : getN (core t') q = getN (core t) q := by rw [hc]
  rw [getN_core, getN_core] at h1
  have h2 := congrArg (Option.map R) h1
  rw [Option.map_map, Option.map_map] at h2
  have h3 : (R ∘ core) = R := funext hR
  rw [h3] at h2
  exact h2

lemma firstElemChildAux_coreL : ∀ (ch : NodeList) (i : Nat),
    firstElemChildAux (coreL ch) i = (firstElemChildAux ch i).map fun x => (x.1, core x.2)
  | .nil, i => rfl
  | .cons c cs, i => by
    show (if isElemNode (core c) then some (i, core c) else firstElemChildAux (coreL cs) (i + 1)) =
      ((if isElemNode c then some (i, c) else firstElemChildAux cs (i + 1)).map
        fun x => (x.1, core x.2))
    rw [isElemNode_core]
    by_cases he : isElemNode c = true
    · rw [if_pos he, if_pos he]; rfl
    · rw [if_neg he, if_neg he]
      exact firstElemChildAux_coreL cs (i + 1)

lemma firstElemChild_core (n : Node) :
    firstElemChild (core n) = (firstElemChild n).map fun x => (x.1, core x.2) := by
  unfold firstElemChild
  rw [childrenOf_core, firstElemChildAux_coreL]

lemma isHeadingElement_core (n : Node) : isHeadingElement (core n) = isHeadingElement n := by
  unfold isHeadingElement
  rw [nameOf_core, firstElemChild_core]
  cases firstElemChild n with
  | none => rfl
  | some x =>
    obtain ⟨i, a⟩ := x
    show (if isHNames (nameOf n) then true
      else if nameOf n == "LI" then
        nameOf (core a) == "A" &&
          ((idOf (core a) ≠ "" && strStarts (idOf (core a)) "org") ||
           (match hrefOf (core a) with
            | some h => strStarts h "#org"
            | none => false))
      else false) = _
    rw [nameOf_core, idOf_core, hrefOf_core]

mutual

lemma descElemPaths_core : ∀ (n : Node), descElemPaths (core n) = descElemPaths n
  | .text s => rfl
  | .elem nm id hf cls dt ds ch => by
    show descElemPathsL (coreL ch) 0 = descElemPathsL ch 0
    exact descElemPathsL_coreL ch 0

lemma descElemPathsL_coreL : ∀ (ch : NodeList) (i : Nat),
    descElemPathsL (coreL ch) i = descElemPathsL ch i
  | .nil, i => rfl
  | .cons c cs, i => by
    show ((if isElemNode (core c) then [[i]] else []) ++
        (descElemPaths (core c)).map (fun p => i :: p)) ++ descElemPathsL (coreL cs) (i + 1) =
      ((if isElemNode c then [[i]] else []) ++ (descElemPaths c).map (fun p => i :: p)) ++
        descElemPathsL cs (i + 1)
    rw [isElemNode_core, descElemPaths_core c, descElemPathsL_coreL cs (i + 1)]

end

lemma isCollectedHeading_core (n : Node) :
    isCollectedHeading (core n) = isCollectedHeading n := by
  unfold isCollectedHeading
  rw [nameOf_core, isHeadingElement_core]

mutual

lemma textContent_core : ∀ (n : Node), textContent (core n) = textContent n
  | .text s => rfl
  | .elem nm id hf cls dt ds ch => by
    show textContentL (coreL ch) = textContentL ch
    exact textContentL_coreL ch

lemma textContentL_coreL : ∀ (ch : NodeList), textContentL (coreL ch) = textContentL ch
  | .nil => rfl
  | .cons c cs => by
    show textContent (core c) ++ textContentL (coreL cs) = textContent c ++ textContentL cs
    rw [textContent_core c, textContentL_coreL cs]

end

lemma headingChildText_core (c : Node) : headingChildText (core c) = headingChildText c := by
  cases c with
  | text s => rfl
  | elem nm id hf cls dt ds ch =>
    show (if nm == "B" then "*" ++ textContent (core (.elem nm id hf cls dt ds ch)) ++ "*"
      else if nm == "I" then "/" ++ textContent (core (.elem nm id hf cls dt ds ch)) ++ "/"
      else if nm == "CODE" then
        (if isStatsCookie (textContent (core (.elem nm id hf cls dt ds ch))) then ""
         else textContent (core (.elem nm id hf cls dt ds ch)))
      else if nm == "P" || nm == "SUP" || nm == "SUB" || nm == "SPAN" || nm == "A" then
        textContent (core (.elem nm id hf cls dt ds ch))
      else "") = _
    rw [textContent_core]
    rfl

lemma headingTextContentL_coreL : ∀ (ch : NodeList),
    headingTextContentL (coreL ch) = headingTextContentL ch
  | .nil => rfl
  | .cons c cs => by
    show headingChildText (core c) ++ headingTextContentL (coreL cs) =
      headingChildText c ++ headingTextContentL cs
    rw [headingChildText_core c, headingTextContentL_coreL cs]

lemma headingTextContent_core (n : Node) :
    headingTextContent (core n) = headingTextContent n := by
  unfold headingTextContent
  rw [childrenOf_core, headingTextContentL_coreL]

lemma isCollectedHeadingAtB_core_eq (t t' : Node) (hc : core t' = core t) (p : Path) :
    isCollectedHeadingAtB t' p = isCollectedHeadingAtB t p := by
  unfold isCollectedHeadingAtB
  have h := map_getN_read_of_core_eq isCollectedHeading isCollectedHeading_core t t' hc p
  cases hg' : getN t' p with
  | none =>
    rw [hg'] at h
    cases hg : getN t p with
    | none => rfl
    | some m => rw [hg] at h; cases h
  | some n =>
    rw [hg'] at h
    cases hg : getN t p with
    | none => rw [hg] at h; cases h
    | some m => rw [hg] at h; exact Option.some.inj h

lemma isHeadingElementAtB_core_eq (t t' : Node) (hc : core t' = core t) (q : Path) :
    isHeadingElementAtB t' q = isHeadingElementAtB t q := by
  unfold isHeadingElementAtB
  have h := map_getN_read_of_core_eq isHeadingElement isHeadingElement_core t t' hc q
  cases hg' : getN t' q with
  | none =>
    rw [hg'] at h
    cases hg : getN t q with
    | none => rfl
    | some m => rw [hg] at h; cases h
  | some n =>
    rw [hg'] at h
    cases hg : getN t q with
    | none => rw [hg] at h; cases h
    | some m => rw [hg] at h; exact Option.some.inj h

lemma isMarkerSpan_core (n : Node) : isMarkerSpan (core n) = isMarkerSpan n := by
  unfold isMarkerSpan
  rw [nameOf_core, classesOf_core]

lemma isMarkerSpanAtB_core_eq (t t' : Node) (hc : core t' = core t) (p : Path) :
    isMarkerSpanAtB t' p = isMarkerSpanAtB t p := by
  unfold isMarkerSpanAtB
  have h := map_getN_read_of_core_eq isMarkerSpan isMarkerSpan_core t t' hc p
  cases hg' : getN t' p with
  | none =>
    rw [hg'] at h
    cases hg : getN t p with
    | none => rfl
    | some m => rw [hg] at h; cases h
  | some n =>
    rw [hg'] at h
    cases hg : getN t p with
    | none => rw [hg] at h; cases h
    | some m => rw [hg] at h; exact Option.some.inj h

lemma headingOwnTextAt_core_eq (t t' : Node) (hc : core t' = core t) (p : Path) :
    headingOwnTextAt t' p = headingOwnTextAt t p := by
  unfold headingOwnTextAt
  have h := map_getN_read_of_core_eq headingTextContent headingTextContent_core t t' hc p
  cases hg' : getN t' p with
  | none =>
    rw [hg'] at h
    cases hg : getN t p with
    | none => rfl
    | some m => rw [hg] at h; cases h
  | some n =>
    rw [hg'] at h
    cases hg : getN t p with
    | none => rw [hg] at h; cases h
    | some m => rw [hg] at h; exact Option.some.inj h

lemma strictDescElemPathsAt_core_eq (t t' : Node) (hc : core t' = core t) (c : Path) :
    strictDescElemPathsAt t' c = strictDescElemPathsAt t c := by
  unfold strictDescElemPathsAt
  have h := map_getN_read_of_core_eq (fun n => (descElemPaths n).map fun p => c ++ p)
    (fun n => by
      show (descElemPaths (core n)).map (fun p => c ++ p) = (descElemPaths n).map fun p => c ++ p
      rw [descElemPaths_core]) t t' hc c
  cases hg' : getN t' c with
  | none =>
    rw [hg'] at h
    cases hg : getN t c with
    | none => rfl
    | some m => rw [hg] at h; cases h
  | some n =>
    rw [hg'] at h
    cases hg : getN t c with
    | none => rw [hg] at h; cases h
    | some m => rw [hg] at h; exact Option.some.inj h

lemma getAllHeadingElements_core_eq (t t' : Node) (hc : core t' = core t) (cr : Path) :
    getAllHeadingElements t' cr = getAllHeadingElements t cr := by
  unfold getAllHeadingElements
  rw [strictDescElemPathsAt_core_eq t t' hc cr,
    show isCollectedHeadingAtB t' = isCollectedHeadingAtB t from
      funext fun p => isCollectedHeadingAtB_core_eq t t' hc p]

lemma markerPaths_core_eq (t t' : Node) (hc : core t' = core t) (cr : Path) :
    markerPaths t' cr = markerPaths t cr := by
  unfold markerPaths
  rw [strictDescElemPathsAt_core_eq t t' hc cr,
    show isMarkerSpanAtB t' = isMarkerSpanAtB t from
      funext fun p => isMarkerSpanAtB_core_eq t t' hc p]

lemma nearestHeadingPath_core_eq (t t' : Node) (hc : core t' = core t) (cr p : Path) :
    nearestHeadingPath t' cr p = nearestHeadingPath t cr p := by
  unfold nearestHeadingPath
  rw [show isHeadingElementAtB t' = isHeadingElementAtB t from
    funext fun q => isHeadingElementAtB_core_eq t t' hc q]

lemma hkWalk_core_eq (t t' : Node) (hc : core t' = core t) (cr : Path) :
    ∀ (fuel : Nat) (cur : Path) (acc : String),
      hkWalk t' cr fuel cur acc = hkWalk t cr fuel cur acc
  | 0, cur, acc => rfl
  | fuel + 1, cur, acc => by
    show (if cur.length ≤ cr.length then acc
      else
        match splitLast cur with
        | some (q, i) =>
          if isHeadingElementAtB t' cur then
            hkWalk t' cr fuel q (headingOwnTextAt t' cur ++ " " ++ acc)
          else if i = 0 then hkWalk t' cr fuel q acc
          else hkWalk t' cr fuel (q ++ [i - 1]) acc
        | none => acc) =
      (if cur.length ≤ cr.length then acc
      else
        match splitLast cur with
        | some (q, i) =>
          if isHeadingElementAtB t cur then
            hkWalk t cr fuel q (headingOwnTextAt t cur ++ " " ++ acc)
          else if i = 0 then hkWalk t cr fuel q acc
          else hkWalk t cr fuel (q ++ [i - 1]) acc
        | none => acc)
    rw [isHeadingElementAtB_core_eq t t' hc cur, headingOwnTextAt_core_eq t t' hc cur]
    by_cases hlen : cur.length ≤ cr.length
    · rw [if_pos hlen, if_pos hlen]
    · rw [if_neg hlen, if_neg hlen]
      cases splitLast cur with
      | none => rfl
      | some qi =>
        obtain ⟨q, i⟩ := qi
        show (if isHeadingElementAtB t cur then
            hkWalk t' cr fuel q (headingOwnTextAt t cur ++ " " ++ acc)
          else if i = 0 then hkWalk t' cr fuel q acc
          else hkWalk t' cr fuel (q ++ [i - 1]) acc) =
          (if isHeadingElementAtB t cur then
            hkWalk t cr fuel q (headingOwnTextAt t cur ++ " " ++ acc)
          else if i = 0 then hkWalk t cr fuel q acc
          else hkWalk t cr fuel (q ++ [i - 1]) acc)
        rw [hkWalk_core_eq t t' hc cr fuel q, hkWalk_core_eq t t' hc cr fuel q,
          hkWalk_core_eq t t' hc cr fuel (q ++ [i - 1])]

lemma combinedHeadingText_core_eq (t t' : Node) (hc : core t' = core t) (cr hp : Path) :
    combinedHeadingText t' cr hp = combinedHeadingText t cr hp := by
  unfold combinedHeadingText
  rw [headingOwnTextAt_core_eq t t' hc hp, hkWalk_core_eq t t' hc cr]

lemma isTodoSpan_core (n : Node) : isTodoSpan (core n) = isTodoSpan n := by
  unfold isTodoSpan
  rw [isElemNode_core, nameOf_core, classesOf_core]

lemma isTagSpan_core (n : Node) : isTagSpan (core n) = isTagSpan n := by
  unfold isTagSpan
  rw [isElemNode_core, nameOf_core, classesOf_core]

lemma isHeadingOrAnchor_core (n : Node) : isHeadingOrAnchor (core n) = isHeadingOrAnchor n := by
  unfold isHeadingOrAnchor
  rw [nameOf_core]

lemma collectTagSpanChildren_coreL : ∀ (ch : NodeList) (acc : List String),
    collectTagSpanChildren (coreL ch) acc = collectTagSpanChildren ch acc
  | .nil, acc => rfl
  | .cons c cs, acc => by
    show collectTagSpanChildren (coreL cs)
      (if nameOf (core c) == "SPAN" then
        ((classesOf (core c)).filter fun x => x ≠ invisibleClassName).foldl addTag acc
      else acc) = _
    rw [nameOf_core, classesOf_core, collectTagSpanChildren_coreL cs]
    rfl

lemma collectSpanTags_core (n : Node) (acc : List String) :
    collectSpanTags (core n) acc = collectSpanTags n acc := by
  unfold collectSpanTags
  rw [isTodoSpan_core, isTagSpan_core, classesOf_core, childrenOf_core,
    collectTagSpanChildren_coreL]

lemma collectGrandchildren_coreL : ∀ (ch : NodeList) (acc : List String),
    collectGrandchildren (coreL ch) acc = collectGrandchildren ch acc
  | .nil, acc => rfl
  | .cons g gs, acc => by
    show collectGrandchildren (coreL gs) (collectSpanTags (core g) acc) = _
    rw [collectSpanTags_core, collectGrandchildren_coreL gs]
    rfl

lemma collectLevelChildren_coreL : ∀ (ch : NodeList) (acc : List String),
    collectLevelChildren (coreL ch) acc = collectLevelChildren ch acc
  | .nil, acc => rfl
  | .cons c cs, acc => by
    show collectLevelChildren (coreL cs)
      (if isTagSpan (core c) || isTodoSpan (core c) then collectSpanTags (core c) acc
       else if isHeadingOrAnchor (core c) then
         collectGrandchildren (childrenOf (core c)) acc
       else acc) = _
    rw [isTagSpan_core, isTodoSpan_core, isHeadingOrAnchor_core, collectSpanTags_core,
      childrenOf_core, collectGrandchildren_coreL, collectLevelChildren_coreL cs]
    rfl

lemma collectLevel_core_eq (t t' : Node) (hc : core t' = core t) (p : Path)
    (acc : List String) : collectLevel t' p acc = collectLevel t p acc := by
  unfold collectLevel
  have h := map_getN_read_of_core_eq (fun n => collectLevelChildren (childrenOf n) acc)
    (fun n => by
      show collectLevelChildren (childrenOf (core n)) acc = collectLevelChildren (childrenOf n) acc
      rw [childrenOf_core, collectLevelChildren_coreL]) t t' hc p
  cases hg' : getN t' p with
  | none =>
    rw [hg'] at h
    cases hg : getN t p with
    | none => rfl
    | some m => rw [hg] at h; cases h
  | some n =>
    rw [hg'] at h
    cases hg : getN t p with
    | none => rw [hg] at h; cases h
    | some m => rw [hg] at h; exact Option.some.inj h

lemma markerWalkUnion_core_eq (t t' : Node) (hc : core t' = core t) (cr p : Path) :
    markerWalkUnion t' cr p = markerWalkUnion t cr p := by
  unfold markerWalkUnion
  rw [show (fun (acc : List String) lv => collectLevel t' lv acc) =
      (fun (acc : List String) lv => collectLevel t lv acc) from
    funext fun acc => funext fun lv => collectLevel_core_eq t t' hc lv acc]

/-! ### Dataset reads across dataset writes -/

lemma dsTagsAtO_modifyAt_ne (t : Node) (q p : Path) (f : Node → Node)
    (hf : ∀ n, childrenOf (f n) = childrenOf n) (hne : p ≠ q) :
    dsTagsAtO (modifyAt t q f) p = dsTagsAtO t p := by
  unfold dsTagsAtO
  by_cases hq : pfx q p = true
  · rw [getN_modifyAt_pfx_of_children_eq t q f hf p hq hne]
  · have h := map_getN_modifyAt_not_pfx dsTagsOf
      (fun nm id hf0 cls dt ds ch ch' => rfl) q p t f (Bool.eq_false_iff.mpr hq)
    cases hg' : getN (modifyAt t q f) p with
    | none =>
      rw [hg'] at h
      cases hg : getN t p with
      | none => rfl
      | some m => rw [hg] at h; cases h
    | some n =>
      rw [hg'] at h
      cases hg : getN t p with
      | none => rw [hg] at h; cases h
      | some m => rw [hg] at h; exact Option.some.inj h

lemma dsSearchAtO_modifyAt_ne (t : Node) (q p : Path) (f : Node → Node)
    (hf : ∀ n, childrenOf (f n) = childrenOf n) (hne : p ≠ q) :
    dsSearchAtO (modifyAt t q f) p = dsSearchAtO t p := by
  unfold dsSearchAtO
  by_cases hq : pfx q p = true
  · rw [getN_modifyAt_pfx_of_children_eq t q f hf p hq hne]
  · have h := map_getN_modifyAt_not_pfx dsSearchOf
      (fun nm id hf0 cls dt ds ch ch' => rfl) q p t f (Bool.eq_false_iff.mpr hq)
    cases hg' : getN (modifyAt t q f) p with
    | none =>
      rw [hg'] at h
      cases hg : getN t p with
      | none => rfl
      | some m => rw [hg] at h; cases h
    | some n =>
      rw [hg'] at h
      cases hg : getN t p with
      | none => rw [hg] at h; cases h
      | some m => rw [hg] at h; exact Option.some.inj h

lemma childrenOf_setDsTags (v : List String) (n : Node) :
    childrenOf (setDsTags v n) = childrenOf n := by cases n <;> rfl

lemma childrenOf_setDsSearch (v : String) (n : Node) :
    childrenOf (setDsSearch v n) = childrenOf n := by cases n <;> rfl

lemma dsTagsAtO_modifyAt_setDsTags (t : Node) (p : Path) (v : List String) (n : Node)
    (hn : getN t p = some n) (he : isElemNode n = true) :
    dsTagsAtO (modifyAt t p (setDsTags v)) p = some v := by
  unfold dsTagsAtO
  rw [getN_modifyAt_self, hn]
  cases n with
  | text s => cases he
  | elem nm id hf cls dt ds ch => rfl

lemma dsSearchAtO_modifyAt_setDsSearch (t : Node) (p : Path) (v : String) (n : Node)
    (hn : getN t p = some n) (he : isElemNode n = true) :
    dsSearchAtO (modifyAt t p (setDsSearch v)) p = some v := by
  unfold dsSearchAtO
  rw [getN_modifyAt_self, hn]
  cases n with
  | text s => cases he
  | elem nm id hf cls dt ds ch => rfl

lemma exists_elem_at_of_core_eq (t t' : Node) (hc : core t' = core t) (p : Path) (n : Node)
    (hn : getN t p = some n) (he : isElemNode n = true) :
    ∃ m, getN t' p = some m ∧ isElemNode m = true := by
  have h := map_getN_read_of_core_eq isElemNode isElemNode_core t t' hc p
  rw [hn] at h
  cases hg' : getN t' p with
  | none => rw [hg'] at h; cases h
  | some m =>
    rw [hg'] at h
    exact ⟨m, rfl, (Option.some.inj h).trans he⟩

/-! ### The heading-keyword collector's fold -/

lemma core_hkStep (cr : Path) (acc : Node × List String) (hp : Path) :
    core (hkStep cr acc hp).1 = core acc.1 := by
  show core (modifyAt acc.1 hp
    (setDsSearch (joinSp (tokenize (some (combinedHeadingText acc.1 cr hp)))))) = core acc.1
  exact core_modifyAt hp acc.1 _ (core_setDsSearch _)

lemma isElemNode_of_isCollectedHeading (n : Node) (h : isCollectedHeading n = true) :
    isElemNode n = true := by
  cases n with
  | elem nm id hf cls dt ds ch => rfl
  | text s => exact Bool.noConfusion h

lemma dsSearch_foldl_hkStep_keep : ∀ (L : List Path) (acc : Node × List String)
    (t : Node) (cr p : Path),
    core acc.1 = core t →
    dsSearchAtO acc.1 p = some (joinSp (tokenize (some (combinedHeadingText t cr p)))) →
    dsSearchAtO ((L.foldl (hkStep cr) acc).1) p =
      some (joinSp (tokenize (some (combinedHeadingText t cr p))))
  | [], acc, t, cr, p, hc, hv => hv
  | hp :: L', acc, t, cr, p, hc, hv => by
    show dsSearchAtO ((L'.foldl (hkStep cr) (hkStep cr acc hp)).1) p = _
    have hc' : core (hkStep cr acc hp).1 = core t := by rw [core_hkStep]; exact hc
    refine dsSearch_foldl_hkStep_keep L' _ t cr p hc' ?_
    by_cases hpe : p = hp
    · subst hpe
      have hcomb : combinedHeadingText acc.1 cr p = combinedHeadingText t cr p :=
        combinedHeadingText_core_eq t acc.1 hc cr p
      obtain ⟨m, hm, hme⟩ : ∃ m, getN acc.1 p = some m ∧ isElemNode m = true := by
        revert hv
        unfold dsSearchAtO
        cases hg : getN acc.1 p with
        | none => intro hv; cases hv
        | some m =>
          intro hv
          refine ⟨m, rfl, ?_⟩
          cases m with
          | text s => cases hv
          | elem nm id hf cls dt ds ch => rfl
      show dsSearchAtO (modifyAt acc.1 p
        (setDsSearch (joinSp (tokenize (some (combinedHeadingText acc.1 cr p)))))) p = _
      rw [dsSearchAtO_modifyAt_setDsSearch acc.1 p _ m hm hme, hcomb]
    · show dsSearchAtO (modifyAt acc.1 hp
        (setDsSearch (joinSp (tokenize (some (combinedHeadingText acc.1 cr hp)))))) p = _
      rw [dsSearchAtO_modifyAt_ne acc.1 hp p _ (childrenOf_setDsSearch _) hpe]
      exact hv

lemma dsSearch_foldl_hkStep_est : ∀ (L : List Path) (acc : Node × List String)
    (t : Node) (cr p : Path) (n : Node),
    core acc.1 = core t → getN t p = some n → isElemNode n = true → p ∈ L →
    dsSearchAtO ((L.foldl (hkStep cr) acc).1) p =
      some (joinSp (tokenize (some (combinedHeadingText t cr p))))
  | [], _, _, _, _, _, _, _, _, hmem => absurd hmem (List.not_mem_nil _)
  | hp :: L', acc, t, cr, p, n, hc, hn, he, hmem => by
    show dsSearchAtO ((L'.foldl (hkStep cr) (hkStep cr acc hp)).1) p = _
    have hc' : core (hkStep cr acc hp).1 = core t := by rw [core_hkStep]; exact hc
    by_cases hpe : p = hp
    · subst hpe
      refine dsSearch_foldl_hkStep_keep L' _ t cr p hc' ?_
      obtain ⟨m, hm, hme⟩ := exists_elem_at_of_core_eq t acc.1 hc p n hn he
      have hcomb : combinedHeadingText acc.1 cr p = combinedHeadingText t cr p :=
        combinedHeadingText_core_eq t acc.1 hc cr p
      show dsSearchAtO (modifyAt acc.1 p
        (setDsSearch (joinSp (tokenize (some (combinedHeadingText acc.1 cr p)))))) p = _
      rw [dsSearchAtO_modifyAt_setDsSearch acc.1 p _ m hm hme, hcomb]
    · have hmem' : p ∈ L' := by
        cases List.mem_cons.mp hmem with
        | inl h => exact absurd h hpe
        | inr h => exact h
      exact dsSearch_foldl_hkStep_est L' _ t cr p n hc' hn he hmem'

lemma dsSearch_foldl_hkStep_frame : ∀ (L : List Path) (acc : Node × List String)
    (cr p : Path), (∀ hp ∈ L, hp ≠ p) →
    dsSearchAtO ((L.foldl (hkStep cr) acc).1) p = dsSearchAtO acc.1 p
  | [], acc, cr, p, _ => rfl
  | hp :: L', acc, cr, p, hno => by
    show dsSearchAtO ((L'.foldl (hkStep cr) (hkStep cr acc hp)).1) p = _
    rw [dsSearch_foldl_hkStep_frame L' _ cr p
      (fun x hx => hno x (List.mem_cons_of_mem hp hx))]
    show dsSearchAtO (modifyAt acc.1 hp
      (setDsSearch (joinSp (tokenize (some (combinedHeadingText acc.1 cr hp)))))) p = _
    rw [dsSearchAtO_modifyAt_ne acc.1 hp p _ (childrenOf_setDsSearch _)
      (Ne.symm (hno hp (List.mem_cons_self hp L')))]

/-- C9.  What the keyword collector actually caches: for every heading the
cached `data-oxtf-normalized-search-text` is the space-joined tokenization of
the combined text built by the source's sibling-and-parent walk — the
heading's own text with the own text of every heading the walk meets
prepended (the walk also meets preceding *sibling* headings, which are not
DOM ancestors; the spec's strict-ancestor prefix description fails for
those, see the counterexample) — and no other node's attribute changes. -/
theorem collectHeadingKeywords_amended (t : Node) (cr p : Path) :
    dsSearchAtO (collectHeadingKeywords t cr).1 p =
      (if p ∈ getAllHeadingElements t cr then
        some (joinSp (tokenize (some (combinedHeadingText t cr p))))
      else dsSearchAtO t p) := by
  unfold collectHeadingKeywords
  by_cases hmem : p ∈ getAllHeadingElements t cr
  · rw [if_pos hmem]
    obtain ⟨n, hn, he⟩ : ∃ n, getN t p = some n ∧ isElemNode n = true := by
      have h2 := (List.mem_filter.mp
        (by unfold getAllHeadingElements at hmem; exact hmem)).2
      unfold isCollectedHeadingAtB at h2
      revert h2
      cases hg : getN t p with
      | none => intro h2; cases h2
      | some n => exact fun h2 => ⟨n, rfl, isElemNode_of_isCollectedHeading n h2⟩
    exact dsSearch_foldl_hkStep_est (getAllHeadingElements t cr) (t, []) t cr p n rfl hn he hmem
  · rw [if_neg hmem]
    exact dsSearch_foldl_hkStep_frame (getAllHeadingElements t cr) (t, []) cr p
      (fun hp hhp hep => hmem (hep ▸ hhp))

/-! ### The tag collector's fold -/

lemma core_ctStep (cr : Path) (acc : Node × List String) (mp : Path) :
    core (ctStep cr acc mp).1 = core acc.1 := by
  show core (match nearestHeadingPath acc.1 cr mp with
    | some hq => modifyAt acc.1 hq (setDsTags (markerWalkUnion acc.1 cr mp))
    | none => acc.1) = core acc.1
  cases nearestHeadingPath acc.1 cr mp with
  | some hq => exact core_modifyAt hq acc.1 _ (core_setDsTags _)
  | none => rfl

lemma isElemNode_of_isHeadingElement (n : Node) (h : isHeadingElement n = true) :
    isElemNode n = true := by
  cases n with
  | elem nm id hf cls dt ds ch => rfl
  | text s => exact Bool.noConfusion h

lemma dsTags_foldl_ctStep_char : ∀ (L : List Path) (acc : Node × List String)
    (t : Node) (cr h : Path),
    core acc.1 = core t →
    dsTagsAtO ((L.foldl (ctStep cr) acc).1) h =
      (match (L.filter fun m => nearestHeadingPath t cr m == some h).getLast? with
       | some m => some (markerWalkUnion t cr m)
       | none => dsTagsAtO acc.1 h)
  | [], acc, t, cr, h, hc => rfl
  | mp :: L', acc, t, cr, h, hc => by
    show dsTagsAtO ((L'.foldl (ctStep cr) (ctStep cr acc mp)).1) h = _
    have hc' : core (ctStep cr acc mp).1 = core t := by rw [core_ctStep]; exact hc
    rw [dsTags_foldl_ctStep_char L' (ctStep cr acc mp) t cr h hc']
    have hnear : nearestHeadingPath acc.1 cr mp = nearestHeadingPath t cr mp :=
      nearestHeadingPath_core_eq t acc.1 hc cr mp
    by_cases hm : (nearestHeadingPath t cr mp == some h) = true
    · rw [List.filter_cons, if_pos hm]
      have heq : nearestHeadingPath t cr mp = some h := eq_of_beq hm
      have hwrite : dsTagsAtO (ctStep cr acc mp).1 h =
          some (markerWalkUnion t cr mp) := by
        have hpred : isHeadingElementAtB t h = true := by
          have := heq
          unfold nearestHeadingPath at this
          exact List.find?_some this
        obtain ⟨n, hn, he⟩ : ∃ n, getN t h = some n ∧ isElemNode n = true := by
          unfold isHeadingElementAtB at hpred
          revert hpred
          cases hg : getN t h with
          | none => intro hpred; cases hpred
          | some n => exact fun hpred => ⟨n, rfl, isElemNode_of_isHeadingElement n hpred⟩
        obtain ⟨m0, hm0, hm0e⟩ := exists_elem_at_of_core_eq t acc.1 hc h n hn he
        show dsTagsAtO (match nearestHeadingPath acc.1 cr mp with
          | some hq => modifyAt acc.1 hq (setDsTags (markerWalkUnion acc.1 cr mp))
          | none => acc.1) h = _
        rw [hnear, heq]
        show dsTagsAtO (modifyAt acc.1 h (setDsTags (markerWalkUnion acc.1 cr mp))) h = _
        rw [dsTagsAtO_modifyAt_setDsTags acc.1 h _ m0 hm0 hm0e,
          markerWalkUnion_core_eq t acc.1 hc cr mp]
      cases hf : (L'.filter fun m => nearestHeadingPath t cr m == some h) with
      | nil =>
        show dsTagsAtO (ctStep cr acc mp).1 h = _
        rw [hwrite]
        rfl
      | cons b bs =>
        rw [List.getLast?_cons_cons]
        cases hlast : (b :: bs).getLast? with
        | none => simp at hlast
        | some m => rfl
    · rw [List.filter_cons, if_neg hm]
      have hpres : dsTagsAtO (ctStep cr acc mp).1 h = dsTagsAtO acc.1 h := by
        show dsTagsAtO (match nearestHeadingPath acc.1 cr mp with
          | some hq => modifyAt acc.1 hq (setDsTags (markerWalkUnion acc.1 cr mp))
          | none => acc.1) h = _
        rw [hnear]
        cases hq : nearestHeadingPath t cr mp with
        | none => rfl
        | some hq' =>
          refine dsTagsAtO_modifyAt_ne acc.1 hq' h _ (childrenOf_setDsTags _) ?_
          intro hhq
          exact hm (by rw [hq, hhq]; exact beq_self_eq_true (some hq'))
      rw [hpres]

/-! ### Membership in the walk union -/

lemma mem_of_contains (l : List String) (s : String) (h : l.contains s = true) : s ∈ l := by
  simpa using h

lemma addTag_mono (acc : List String) (s : String) :
    ∀ x, x ∈ acc → x ∈ addTag acc s := by
  intro x hx
  unfold addTag
  by_cases hc : acc.contains s = true
  · rw [if_pos hc]; exact hx
  · rw [if_neg hc]; exact List.mem_append_left _ hx

lemma addTag_subset (acc acc' : List String) (hsub : ∀ x, x ∈ acc → x ∈ acc')
    (s : String) : ∀ x, x ∈ addTag acc s → x ∈ addTag acc' s := by
  intro x hx
  unfold addTag at hx
  by_cases hc : acc.contains s = true
  · rw [if_pos hc] at hx
    exact addTag_mono acc' s x (hsub x hx)
  · rw [if_neg hc] at hx
    cases List.mem_append.mp hx with
    | inl hxl => exact addTag_mono acc' s x (hsub x hxl)
    | inr hxr =>
      have hxs : x = s := List.mem_singleton.mp hxr
      subst hxs
      unfold addTag
      by_cases hc' : acc'.contains x = true
      · rw [if_pos hc']; exact mem_of_contains acc' x hc'
      · rw [if_neg hc']; exact List.mem_append_right _ (List.mem_singleton.mpr rfl)

lemma foldl_addTag_mono : ∀ (l : List String) (acc : List String) (x : String),
    x ∈ acc → x ∈ l.foldl addTag acc
  | [], _, _, hx => hx
  | s :: l', acc, x, hx => foldl_addTag_mono l' (addTag acc s) x (addTag_mono acc s x hx)

lemma foldl_addTag_subset : ∀ (l : List String) (acc acc' : List String),
    (∀ x, x ∈ acc → x ∈ acc') →
    ∀ x, x ∈ l.foldl addTag acc → x ∈ l.foldl addTag acc'
  | [], _, _, hsub, x, hx => hsub x hx
  | s :: l', acc, acc', hsub, x, hx =>
    foldl_addTag_subset l' _ _ (addTag_subset acc acc' hsub s) x hx

lemma collectTagSpanChildren_mono : ∀ (ch : NodeList) (acc : List String) (x : String),
    x ∈ acc → x ∈ collectTagSpanChildren ch acc
  | .nil, acc, x, hx => hx
  | .cons c cs, acc, x, hx => by
    show x ∈ collectTagSpanChildren cs
      (if nameOf c == "SPAN" then
        ((classesOf c).filter fun y => y ≠ invisibleClassName).foldl addTag acc
      else acc)
    refine collectTagSpanChildren_mono cs _ x ?_
    by_cases hs : (nameOf c == "SPAN") = true
    · rw [if_pos hs]; exact foldl_addTag_mono _ acc x hx
    · rw [if_neg hs]; exact hx

lemma collectTagSpanChildren_subset : ∀ (ch : NodeList) (acc acc' : List String),
    (∀ x, x ∈ acc → x ∈ acc') →
    ∀ x, x ∈ collectTagSpanChildren ch acc → x ∈ collectTagSpanChildren ch acc'
  | .nil, acc, acc', hsub, x, hx => hsub x hx
  | .cons c cs, acc, acc', hsub, x, hx => by
    show x ∈ collectTagSpanChildren cs
      (if nameOf c == "SPAN" then
        ((classesOf c).filter fun y => y ≠ invisibleClassName).foldl addTag acc'
      else acc')
    have hx' : x ∈ collectTagSpanChildren cs
        (if nameOf c == "SPAN" then
          ((classesOf c).filter fun y => y ≠ invisibleClassName).foldl addTag acc
        else acc) := hx
    refine collectTagSpanChildren_subset cs _ _ ?_ x hx'
    by_cases hs : (nameOf c == "SPAN") = true
    · rw [if_pos hs, if_pos hs]; exact foldl_addTag_subset _ acc acc' hsub
    · rw [if_neg hs, if_neg hs]; exact hsub

lemma collectSpanTags_mono (n : Node) (acc : List String) (x : String) (hx : x ∈ acc) :
    x ∈ collectSpanTags n acc := by
  unfold collectSpanTags
  by_cases h1 : isTodoSpan n = true
  · rw [if_pos h1]; exact foldl_addTag_mono _ acc x hx
  · rw [if_neg h1]
    by_cases h2 : isTagSpan n = true
    · rw [if_pos h2]; exact collectTagSpanChildren_mono _ acc x hx
    · rw [if_neg h2]; exact hx

lemma collectSpanTags_subset (n : Node) (acc acc' : List String)
    (hsub : ∀ x, x ∈ acc → x ∈ acc') :
    ∀ x, x ∈ collectSpanTags n acc → x ∈ collectSpanTags n acc' := by
  intro x hx
  unfold collectSpanTags at hx ⊢
  by_cases h1 : isTodoSpan n = true
  · rw [if_pos h1] at hx ⊢; exact foldl_addTag_subset _ acc acc' hsub x hx
  · rw [if_neg h1] at hx ⊢
    by_cases h2 : isTagSpan n = true
    · rw [if_pos h2] at hx ⊢; exact collectTagSpanChildren_subset _ acc acc' hsub x hx
    · rw [if_neg h2] at hx ⊢; exact hsub x hx

lemma collectGrandchildren_mono : ∀ (ch : NodeList) (acc : List String) (x : String),
    x ∈ acc → x ∈ collectGrandchildren ch acc
  | .nil, acc, x, hx => hx
  | .cons g gs, acc, x, hx => by
    show x ∈ collectGrandchildren gs (collectSpanTags g acc)
    exact collectGrandchildren_mono gs _ x (collectSpanTags_mono g acc x hx)

lemma collectGrandchildren_subset : ∀ (ch : NodeList) (acc acc' : List String),
    (∀ x, x ∈ acc → x ∈ acc') →
    ∀ x, x ∈ collectGrandchildren ch acc → x ∈ collectGrandchildren ch acc'
  | .nil, _, _, hsub, x, hx => hsub x hx
  | .cons g gs, acc, acc', hsub, x, hx =>
    collectGrandchildren_subset gs _ _ (collectSpanTags_subset g acc acc' hsub) x hx

lemma collectLevelChildren_mono : ∀ (ch : NodeList) (acc : List String) (x : String),
    x ∈ acc → x ∈ collectLevelChildren ch acc
  | .nil, acc, x, hx => hx
  | .cons c cs, acc, x, hx => by
    show x ∈ collectLevelChildren cs
      (if isTagSpan c || isTodoSpan c then collectSpanTags c acc
       else if isHeadingOrAnchor c then collectGrandchildren (childrenOf c) acc
       else acc)
    refine collectLevelChildren_mono cs _ x ?_
    by_cases h1 : (isTagSpan c || isTodoSpan c) = true
    · rw [if_pos h1]; exact collectSpanTags_mono c acc x hx
    · rw [if_neg h1]
      by_cases h2 : isHeadingOrAnchor c = true
      · rw [if_pos h2]; exact collectGrandchildren_mono _ acc x hx
      · rw [if_neg h2]; exact hx

lemma collectLevelChildren_subset : ∀ (ch : NodeList) (acc acc' : List String),
    (∀ x, x ∈ acc → x ∈ acc') →
    ∀ x, x ∈ collectLevelChildren ch acc → x ∈ collectLevelChildren ch acc'
  | .nil, acc, acc', hsub, x, hx => hsub x hx
  | .cons c cs, acc, acc', hsub, x, hx => by
    show x ∈ collectLevelChildren cs
      (if isTagSpan c || isTodoSpan c then collectSpanTags c acc'
       else if isHeadingOrAnchor c then collectGrandchildren (childrenOf c) acc'
       else acc')
    have hx' : x ∈ collectLevelChildren cs
        (if isTagSpan c || isTodoSpan c then collectSpanTags c acc
         else if isHeadingOrAnchor c then collectGrandchildren (childrenOf c) acc
         else acc) := hx
    refine collectLevelChildren_subset cs _ _ ?_ x hx'
    by_cases h1 : (isTagSpan c || isTodoSpan c) = true
    · rw [if_pos h1, if_pos h1]; exact collectSpanTags_subset c acc acc' hsub
    · rw [if_neg h1, if_neg h1]
      by_cases h2 : isHeadingOrAnchor c = true
      · rw [if_pos h2, if_pos h2]; exact collectGrandchildren_subset _ acc acc' hsub
      · rw [if_neg h2, if_neg h2]; exact hsub

lemma collectLevel_mono (t : Node) (p : Path) (acc : List String) (x : String)
    (hx : x ∈ acc) : x ∈ collectLevel t p acc := by
  unfold collectLevel
  cases getN t p with
  | none => exact hx
  | some n => exact collectLevelChildren_mono _ acc x hx

lemma collectLevel_subset (t : Node) (p : Path) (acc acc' : List String)
    (hsub : ∀ x, x ∈ acc → x ∈ acc') :
    ∀ x, x ∈ collectLevel t p acc → x ∈ collectLevel t p acc' := by
  intro x hx
  unfold collectLevel at hx ⊢
  revert hx
  cases getN t p with
  | none => exact hsub x
  | some n => exact collectLevelChildren_subset _ acc acc' hsub x

lemma foldl_collectLevel_mono (t : Node) : ∀ (L : List Path) (acc : List String)
    (x : String), x ∈ acc → x ∈ L.foldl (fun a lv => collectLevel t lv a) acc
  | [], _, _, hx => hx
  | lv :: L', acc, x, hx =>
    foldl_collectLevel_mono t L' _ x (collectLevel_mono t lv acc x hx)

lemma mem_markerWalkUnion_of_level (t : Node) (cr p lv : Path)
    (hlv : lv ∈ chainDown p cr.length) (s : String) (hs : s ∈ collectLevel t lv []) :
    s ∈ markerWalkUnion t cr p := by
  obtain ⟨L1, L2, hsplit⟩ := List.append_of_mem hlv
  unfold markerWalkUnion
  rw [hsplit, List.foldl_append]
  show s ∈ L2.foldl (fun a l => collectLevel t l a)
    (collectLevel t lv (L1.foldl (fun a l => collectLevel t l a) []))
  refine foldl_collectLevel_mono t L2 _ s ?_
  exact collectLevel_subset t lv [] _ (fun x hx => absurd hx (List.not_mem_nil x)) s hs

/-- C2.  What the tag collector actually attaches: a heading's `data-oxtf-tags`
is the walk union of the *last* marker span (in document order) whose
attach walk stops at that heading, and is untouched when no marker attaches
to it — so a descendant heading with no marker of its own resolves to no
tags, refuting the unconditional ancestor-superset property (see the
counterexample).  The union itself is inherited along the marker's ancestor
chain: every tag contributed by any single chain level (including the levels
holding ancestor headings' marker spans) is a member of the walk union. -/
theorem collectTags_amended (t : Node) (cr h : Path) :
    (dsTagsAtO (collectTags t cr).1 h =
      match ((markerPaths t cr).filter fun m =>
          nearestHeadingPath t cr m == some h).getLast? with
      | some m => some (markerWalkUnion t cr m)
      | none => dsTagsAtO t h) ∧
    (∀ (m lv : Path) (s : String), lv ∈ chainDown m cr.length →
      s ∈ collectLevel t lv [] → s ∈ markerWalkUnion t cr m) := by
  refine ⟨?_, fun m lv s hlv hs => mem_markerWalkUnion_of_level t cr m lv hlv s hs⟩
  unfold collectTags
  exact dsTags_foldl_ctStep_char (markerPaths t cr) (t, []) t cr h rfl

end OXTF
